import Mathlib

/-!
# Assuan line framing (`common/io.go`)

A shallow embedding of `ReadLine`, `WriteLine`, `WriteData` and `WriteComment`
of package `common`, together with the parts of the Go standard library they
call (`strings.ToUpper`, `strings.HasPrefix`, `strings.TrimSpace`,
`strings.SplitN`, `bufio.Scanner` with its default `ScanLines` split function).

Go strings and byte slices are byte sequences; they are modelled as lists of
natural numbers, one number per byte. Streams are explicit states: a `Writer`
records the slices written to it, a `Reader` holds the bursts of bytes still to
be delivered. Loops of the source are structural recursions over a bound on the
number of rounds, and the bound is shown never to be reached
(`WriteData_eq_writeAll`, `ReadLine_total`). `ReadLine_eq_readLineOf` relates
`ReadLine`, which runs the scanner over the reads of a stream, to a description
of its result in terms of the lines of the stream.

`escapeParameters` and `unescapeParameters` are called by `io.go` but defined
elsewhere in the package; they follow the description of the codec in the
specification.
-/

namespace Assuan

/-- MaxLineLen is a maximum length of line in Assuan protocol, including
space after command and LF. -/
def MaxLineLen : Nat := 1000

/-- The bytes of an ASCII string literal, for writing examples. -/
def bytes (s : String) : List Nat := s.data.map Char.toNat

/-- Go `error` values that can come out of the functions of `io.go`. -/
inductive Error where
  /-- End of input, `io.EOF`, as recorded inside a `bufio.Scanner`. -/
  | eof
  /-- An error returned by the caller's stream (`Read` or `Write`), identified by a code. -/
  | stream (code : Nat)
  /-- Token too long, `bufio.ErrTooLong`: a line did not fit the scanner's buffer. -/
  | scanTooLong
  /-- No progress, `io.ErrNoProgress`: too many reads returned no data and no error. -/
  | noProgress
  /-- The value of `errors.New("too long command or parameters")` in `WriteLine`. -/
  | lineTooLong
  /-- The decode failure of `unescapeParameters`. -/
  | malformedEscape
  deriving DecidableEq, Repr

deriving instance DecidableEq for Except

/-! ## Escaping codec -/

/-- Upper-case hexadecimal digit (as an ASCII byte) of a value below 16. -/
def hexDigit (n : Nat) : Nat := if n < 10 then 48 + n else 55 + n

/-- Value of an ASCII hexadecimal digit, in either letter case. -/
def hexVal (c : Nat) : Option Nat :=
  if 48 ≤ c ∧ c ≤ 57 then some (c - 48)
  else if 65 ≤ c ∧ c ≤ 70 then some (c - 55)
  else if 97 ≤ c ∧ c ≤ 102 then some (c - 87)
  else none

/-- Reserved bytes of the codec: line feed, carriage return, percent sign and space. -/
def reserved (b : Nat) : Bool := b == 10 || b == 13 || b == 37 || b == 32

/-- Modelled from the spec: `escapeParameters` is called by `WriteLine` and
`WriteData` but its body is not part of `io.go`. Following spec §4.1, each
reserved byte (line feed, carriage return, percent sign, space) becomes a
percent sign followed by the two hexadecimal digits of the byte value; every
other byte passes through unchanged. -/
def escapeParameters : List Nat → List Nat
  | [] => []
  | b :: rest =>
    if reserved b then 37 :: hexDigit (b / 16) :: hexDigit (b % 16) :: escapeParameters rest
    else b :: escapeParameters rest

/-- Modelled from the spec: `unescapeParameters` is called by `ReadLine` but its
body is not part of `io.go`. Following spec §4.1 it is the inverse of
`escapeParameters` and fails when a percent sign is not followed by two valid
hexadecimal digits, or when the input ends inside an escape token. -/
def unescapeParameters : List Nat → Except Error (List Nat)
  | [] => .ok []
  | b :: rest =>
    if b = 37 then
      match rest with
      | h :: l :: rest2 =>
        match hexVal h, hexVal l with
        | some x, some y =>
          match unescapeParameters rest2 with
          | .ok out => .ok ((16 * x + y) :: out)
          | .error e => .error e
        | _, _ => .error Error.malformedEscape
      | _ => .error Error.malformedEscape
    else
      match unescapeParameters rest with
      | .ok out => .ok (b :: out)
      | .error e => .error e

/-! ## `strings.ToUpper` -/

/-- The ASCII branch of `strings.ToUpper`: `'a'..'z'` move down by 32. -/
def asciiUpper (c : Nat) : Nat := if 97 ≤ c ∧ c ≤ 122 then c - 32 else c

/-- Go `strings.ToUpper`. A string made of ASCII bytes only is mapped byte by
byte; any other string is handed to `strings.Map(unicode.ToUpper, s)`, which
depends on the Unicode case tables of the Go runtime and is taken as the
parameter `mapUpper`. -/
def ToUpper (mapUpper : List Nat → List Nat) (s : List Nat) : List Nat :=
  if s.all (fun c => decide (c < 128)) then s.map asciiUpper else mapUpper s

/-! ## Writable stream -/

/-- A caller-supplied `io.Writer`. `log` holds the byte slices passed to `Write`
so far, oldest first. `outcome` is the stream's behaviour: given the log
including the slice being written, it tells whether that `Write` call fails and
with which error code. -/
structure Writer where
  log : List (List Nat)
  outcome : List (List Nat) → Option Nat

/-- One call of `pipe.Write(p)`; the byte count it returns is ignored by every caller. -/
def Writer.Write (w : Writer) (p : List Nat) : Writer × Option Error :=
  ({ w with log := w.log ++ [p] }, (w.outcome (w.log ++ [p])).map Error.stream)

/-- WriteLine writes request/response to underlying pipe.
Contents of params is escaped according to requirements of Assuan protocol. -/
def WriteLine (mapUpper : List Nat → List Nat) (pipe : Writer) (cmd params : List Nat) :
    Writer × Option Error :=
  if cmd.length + params.length + 2 > MaxLineLen then
    (pipe, some Error.lineTooLong)
  else
    pipe.Write (ToUpper mapUpper cmd ++ [32] ++ escapeParameters params ++ [10])

/-- Go builtin-shadowing helper `min` of `io.go`. -/
def min (a b : Nat) : Nat := if a ≤ b then a else b

/-- The Go slice expression `s[i:j]`. -/
def slice (s : List Nat) (i j : Nat) : List Nat := (s.take j).drop i

/-- The `for` loop of `WriteData`, started at index `i`. `fuel` bounds the number
of iterations; `none` means the bound was too small. -/
def WriteData.loop (encoded : List Nat) : Nat → Nat → Writer → Option (Writer × Option Error)
  | fuel, i, pipe =>
    if i < encoded.length then
      match fuel with
      | 0 => none
      | fuel + 1 =>
        let chunk := slice encoded i (min (i + (MaxLineLen - 3)) encoded.length)
        let chunk := [68, 32] ++ chunk
        let chunk := chunk ++ [10]
        match pipe.Write chunk with
        | (pipe, some err) => some (pipe, some err)
        | (pipe, none) => WriteData.loop encoded fuel (i + (MaxLineLen - 3)) pipe
    else some (pipe, none)

/-- WriteData sends passed byte slice using one or more D commands.
The loop index grows by 997 each round, so `len(encoded)` rounds always suffice. -/
def WriteData (pipe : Writer) (input : List Nat) : Option (Writer × Option Error) :=
  let encoded := escapeParameters input
  WriteData.loop encoded encoded.length 0 pipe

/-- WriteComment is special case of WriteLine. "Command" is # and text is parameter. -/
def WriteComment (mapUpper : List Nat → List Nat) (pipe : Writer) (text : List Nat) :
    Writer × Option Error :=
  WriteLine mapUpper pipe [35] text

/-! ## Readable stream and `bufio.Scanner` -/

/-- A caller-supplied `io.Reader`. `chunks` are the byte bursts the peer will
deliver, in order: a `Read` call returns bytes of the first chunk only, as many
as fit the destination. An empty chunk is a `Read` that returns no data and no
error. When the chunks are used up `Read` returns `io.EOF` (`final = none`) or
the stream error with the code given by `final`. -/
structure Reader where
  chunks : List (List Nat)
  final : Option Nat
  deriving DecidableEq, Repr

/-- One call of `pipe.Read(p)` with `len(p) = n`: the bytes stored, the error, the stream afterwards. -/
def Reader.Read (r : Reader) (n : Nat) : List Nat × Option Error × Reader :=
  match r.chunks with
  | [] => ([], some (match r.final with | none => Error.eof | some c => Error.stream c), r)
  | c :: cs =>
    if c.length ≤ n then (c, none, { r with chunks := cs })
    else (c.take n, none, { r with chunks := c.drop n :: cs })

/-- Go `bytes.IndexByte`: position of the first occurrence of `b`. -/
def IndexByte : List Nat → Nat → Option Nat
  | [], _ => none
  | x :: rest, b => if x = b then some 0 else (IndexByte rest b).map (· + 1)

/-- Go `bufio.dropCR`: drops a terminal carriage return from the data. -/
def dropCR (data : List Nat) : List Nat :=
  if data.getLast? = some 13 then data.dropLast else data

/-- Go `bufio.ScanLines`, the default split function: the advance and the token
(`none` for a nil token); it never returns an error. -/
def ScanLines (data : List Nat) (atEOF : Bool) : Nat × Option (List Nat) :=
  if atEOF && data.isEmpty then (0, none)
  else
    match IndexByte data 10 with
    | some i => (i + 1, some (dropCR (data.take i)))
    | none => if atEOF then (data.length, some (dropCR data)) else (0, none)

/-- Go `bufio.MaxScanTokenSize`. -/
def MaxScanTokenSize : Nat := 64 * 1024

/-- Go `bufio.startBufSize`. -/
def startBufSize : Nat := 4096

/-- Go `bufio.maxConsecutiveEmptyReads`. -/
def maxConsecutiveEmptyReads : Nat := 100

/-- State of a `bufio.Scanner`. `buf` is the unread window `s.buf[s.start:s.end]`,
`start` its offset in the buffer, `cap` the buffer's length `len(s.buf)` and
`err` the sticky error `s.err`. -/
structure Scanner where
  r : Reader
  buf : List Nat
  start : Nat
  cap : Nat
  err : Option Error
  deriving DecidableEq, Repr

/-- Go `bufio.NewScanner`. -/
def NewScanner (r : Reader) : Scanner := { r := r, buf := [], start := 0, cap := 0, err := none }

/-- The inner read loop of `Scanner.Scan`: reads until data or an error arrives;
`left` counts the empty reads still tolerated before `io.ErrNoProgress`. -/
def Scanner.readLoop (space : Nat) : Nat → Reader → List Nat × Option Error × Reader
  | 0, r => ([], some Error.noProgress, r)
  | left + 1, r =>
    match r.Read space with
    | (data, some e, r1) => (data, some e, r1)
    | (data, none, r1) => if data.length > 0 then (data, none, r1) else Scanner.readLoop space left r1

/-- The split attempt that opens a round of `Scan`: made when the window holds
data or the input has ended. -/
def Scanner.split (s : Scanner) : Nat × Option (List Nat) :=
  if s.buf.length > 0 ∨ s.err.isSome then ScanLines s.buf s.err.isSome else (0, none)

/-- The step "shift data to beginning of buffer if there's lots of empty space or space is needed". -/
def Scanner.shift (s : Scanner) : Scanner :=
  if s.start > 0 ∧ (s.start + s.buf.length = s.cap ∨ s.start > s.cap / 2)
  then { s with start := 0 } else s

/-- The step "is the buffer full? if so, resize" for a buffer below the size limit. -/
def Scanner.grow (s : Scanner) : Scanner :=
  if s.start + s.buf.length = s.cap
  then { s with
         cap := Assuan.min (if s.cap * 2 = 0 then startBufSize else s.cap * 2) MaxScanTokenSize,
         start := 0 }
  else s

/-- The `for` loop of `Scanner.Scan` with the `ScanLines` split function. The
result is the token (`none` when `Scan` returns false) and the scanner
afterwards; `fuel` bounds the number of rounds, the outer `none` meaning the
bound was too small. -/
def Scanner.scanLoop : Nat → Scanner → Option (Option (List Nat) × Scanner)
  | 0, _ => none
  | fuel + 1, s =>
    match s.split.2 with
    | some token =>
      some (some token, { s with buf := s.buf.drop s.split.1, start := s.start + s.split.1 })
    | none =>
      if s.err.isSome then some (none, { s with buf := [], start := 0 })
      else
        let s := s.shift
        if s.start + s.buf.length = s.cap ∧ s.cap ≥ MaxScanTokenSize then
          some (none, { s with err := some Error.scanTooLong })
        else
          let s := s.grow
          match Scanner.readLoop (s.cap - (s.start + s.buf.length))
              (maxConsecutiveEmptyReads + 1) s.r with
          | (data, e, r1) =>
            Scanner.scanLoop fuel { s with r := r1, buf := s.buf ++ data, err := e }

/-- Number of `Read` calls a stream can answer before it is used up. -/
def Reader.size (r : Reader) : Nat := (r.chunks.map (fun c => c.length + 1)).sum + 1

/-- Go `Scanner.Scan`; every round of its loop but the last calls `Read`, so
`size + 2` rounds suffice. -/
def Scanner.Scan (s : Scanner) : Option (Option (List Nat) × Scanner) :=
  Scanner.scanLoop (s.r.size + 2) s

/-- Go `Scanner.Err`: the first non-EOF error met by the scanner. -/
def Scanner.Err (s : Scanner) : Option Error :=
  if s.err = some Error.eof then none else s.err

/-! ## `strings` helpers of `ReadLine` -/

/-- Go `strings.HasPrefix`. -/
def HasPrefix (s pre : List Nat) : Bool := s.take pre.length == pre

/-- Byte length of the white-space rune (`unicode.IsSpace`) whose UTF-8
encoding starts `s`, or 0 when `s` does not start with one. -/
def spaceRuneLen : List Nat → Nat
  | [] => 0
  | b :: rest =>
    if b = 9 ∨ b = 10 ∨ b = 11 ∨ b = 12 ∨ b = 13 ∨ b = 32 then 1
    else if b = 0xC2 then
      match rest with
      | c :: _ => if c = 0x85 ∨ c = 0xA0 then 2 else 0
      | _ => 0
    else if b = 0xE1 then
      match rest with
      | c :: d :: _ => if c = 0x9A ∧ d = 0x80 then 3 else 0
      | _ => 0
    else if b = 0xE2 then
      match rest with
      | c :: d :: _ =>
        if c = 0x80 ∧ ((0x80 ≤ d ∧ d ≤ 0x8A) ∨ d = 0xA8 ∨ d = 0xA9 ∨ d = 0xAF) then 3
        else if c = 0x81 ∧ d = 0x9F then 3 else 0
      | _ => 0
    else if b = 0xE3 then
      match rest with
      | c :: d :: _ => if c = 0x80 ∧ d = 0x80 then 3 else 0
      | _ => 0
    else 0

/-- Removes leading white-space runes; `fuel` bounds the number of runes removed. -/
def trimLeftSpace : Nat → List Nat → List Nat
  | 0, s => s
  | fuel + 1, s =>
    if spaceRuneLen s = 0 then s else trimLeftSpace fuel (s.drop (spaceRuneLen s))

/-- The test `len(strings.TrimSpace(line)) == 0`. `TrimSpace` leaves nothing
exactly when the string is a sequence of white-space runes, that is when
removing white space from the left alone leaves nothing. -/
def isBlank (line : List Nat) : Bool := (trimLeftSpace line.length line).isEmpty

/-- Go `strings.SplitN(s, " ", 2)`: split at the first space, if there is one. -/
def SplitN (s : List Nat) : List (List Nat) :=
  match IndexByte s 32 with
  | some i => [s.take i, s.drop (i + 1)]
  | none => [s]

/-! ## `ReadLine` -/

/-- The three results `(cmd, params, err)` of `ReadLine`. -/
structure ReadResult where
  cmd : List Nat
  params : List Nat
  err : Option Error
  deriving DecidableEq, Repr

/-- The part of `ReadLine` after its loop: split the line and decode the parameters. -/
def ReadLine.parse (mapUpper : List Nat → List Nat) (line : List Nat) : ReadResult :=
  match SplitN line with
  | [cmd] => ⟨ToUpper mapUpper cmd, [], none⟩
  | cmd :: rest :: _ =>
    match unescapeParameters rest with
    | .error e => ⟨[], [], some e⟩
    | .ok params => ⟨ToUpper mapUpper cmd, params, none⟩
  | [] => ⟨[], [], none⟩

/-- The `for` loop of `ReadLine` followed by the parse of the line it stops at.
`fuel` bounds the number of lines scanned, `none` meaning the bound was too small. -/
def ReadLine.loop (mapUpper : List Nat → List Nat) : Nat → Scanner → Option (ReadResult × Scanner)
  | 0, _ => none
  | fuel + 1, scanner =>
    match scanner.Scan with
    | none => none
    | some (none, scanner) => some (⟨[], [], scanner.Err⟩, scanner)
    | some (some line, scanner) =>
      if !HasPrefix line [35] && !HasPrefix line [83, 32] && !isBlank line then
        some (ReadLine.parse mapUpper line, scanner)
      else ReadLine.loop mapUpper fuel scanner

/-- ReadLine reads raw request/response in following format: command <parameters>

Empty lines and lines starting with # are ignored as specified by protocol.
Additinally, status information is silently discarded for now.

The result is paired with the stream as the call leaves it. Every scanned line
holds at least one byte of the stream, so `size + 2` rounds suffice. -/
def ReadLine (mapUpper : List Nat → List Nat) (pipe : Reader) : Option (ReadResult × Reader) :=
  (ReadLine.loop mapUpper (pipe.size + 2) (NewScanner pipe)).map (fun p => (p.1, p.2.r))

/-! ## Reference description of the data lines -/

/-- Consecutive pieces of at most `n` bytes each; `fuel` bounds the number of pieces. -/
def chunksOf (n : Nat) : Nat → List Nat → List (List Nat)
  | _, [] => []
  | 0, _ :: _ => []
  | fuel + 1, b :: rest => (b :: rest).take n :: chunksOf n fuel ((b :: rest).drop n)

/-- A data line: `"D "`, the chunk, a line feed. -/
def dataLine (chunk : List Nat) : List Nat := [68, 32] ++ chunk ++ [10]

/-- The chunk body of a data line: the line without its leading `"D "` and its final byte. -/
def chunkBody (line : List Nat) : List Nat := (line.drop 2).dropLast

/-- The data lines of a payload as spec §4.4 lists them: the escaped payload cut
into consecutive chunks of at most `MaxLineLen - 3` bytes, each sent as one line. -/
def dataLines (payload : List Nat) : List (List Nat) :=
  (chunksOf (MaxLineLen - 3) (escapeParameters payload).length (escapeParameters payload)).map
    dataLine

/-- Writes the slices one after the other and stops at the first failing write. -/
def writeAll : Writer → List (List Nat) → Writer × Option Error
  | pipe, [] => (pipe, none)
  | pipe, p :: rest =>
    match pipe.Write p with
    | (pipe, some err) => (pipe, some err)
    | (pipe, none) => writeAll pipe rest

/-! ## Reference description of the reader -/

/-- The lines of a byte stream as spec §4.2 step 1 cuts them: the bytes up to a
line feed, the line feed stripped; bytes after the last line feed form a last
line. -/
def streamLines : List Nat → List (List Nat)
  | [] => []
  | b :: rest =>
    if b = 10 then [] :: streamLines rest
    else
      match streamLines rest with
      | [] => [[b]]
      | l :: ls => (b :: l) :: ls

/-- The lines spec §4.2 step 2 discards: lines that begin with `#` or with `S `
and lines that are empty after trimming white space. -/
def discarded (line : List Nat) : Bool :=
  HasPrefix line [35] || HasPrefix line [83, 32] || isBlank line

/-- The result of reading a stream with the given lines, line by line: a line
that does not fit the scanner's buffer ends the reading with
`bufio.ErrTooLong`; a line is taken without a carriage return that ends it; a
discarded line is passed over; the first other line is parsed; when the lines
are used up the result is empty, with the stream's error unless the stream
ended with `io.EOF`. -/
def readLineOf (mapUpper : List Nat → List Nat) (final : Option Nat) :
    List (List Nat) → ReadResult
  | [] => ⟨[], [], final.map Error.stream⟩
  | l :: ls =>
    if MaxScanTokenSize ≤ l.length then ⟨[], [], some Error.scanTooLong⟩
    else if discarded (dropCR l) then readLineOf mapUpper final ls
    else ReadLine.parse mapUpper (dropCR l)

end Assuan

namespace Assuan

/-! ## The codec -/

theorem hexVal_hexDigit_reserved (b : Nat) (h : reserved b = true) :
    hexVal (hexDigit (b / 16)) = some (b / 16) ∧ hexVal (hexDigit (b % 16)) = some (b % 16) := by
  simp only [reserved, Bool.or_eq_true, beq_iff_eq] at h
  rcases h with ((h | h) | h) | h <;> subst h <;> decide

theorem unescape_escape (x : List Nat) : unescapeParameters (escapeParameters x) = .ok x := by
  induction x with
  | nil => rfl
  | cons b rest ih =>
    by_cases hb : reserved b = true
    · obtain ⟨h1, h2⟩ := hexVal_hexDigit_reserved b hb
      have hdiv : 16 * (b / 16) + b % 16 = b := Nat.div_add_mod b 16
      simp [escapeParameters, hb, unescapeParameters, h1, h2, ih, hdiv]
    · have h37 : b ≠ 37 := by
        intro h; subst h; exact hb (by decide)
      have hb2 : reserved b = false := by simpa using hb
      simp only [escapeParameters, hb2, Bool.false_eq_true, if_false]
      rw [unescapeParameters.eq_def]
      simp [h37, ih]

/-! ## `WriteData` against its reference description -/

theorem slice_min (s : List Nat) (i n : Nat) :
    slice s i (Assuan.min (i + n) s.length) = (s.drop i).take n := by
  unfold slice Assuan.min
  split
  · rw [List.drop_take, Nat.add_sub_cancel_left]
  · rename_i h
    rw [List.take_length, List.take_of_length_le]
    simp only [List.length_drop]; omega

theorem loop_eq_writeAll (enc : List Nat) :
    ∀ (fuel i : Nat) (pipe : Writer), enc.length - i ≤ fuel →
      WriteData.loop enc fuel i pipe
        = some (writeAll pipe ((chunksOf (MaxLineLen - 3) fuel (enc.drop i)).map dataLine)) := by
  intro fuel
  induction fuel with
  | zero =>
    intro i pipe h
    have hi : ¬ i < enc.length := by omega
    have hd : enc.drop i = [] := List.drop_eq_nil_of_le (by omega)
    simp [WriteData.loop, hi, hd, chunksOf, writeAll]
  | succ f ih =>
    intro i pipe h
    by_cases hi : i < enc.length
    · obtain ⟨b, rest, hbr⟩ : ∃ b rest, enc.drop i = b :: rest := by
        cases hd : enc.drop i with
        | nil => have := congrArg List.length hd; simp at this; omega
        | cons b rest => exact ⟨b, rest, rfl⟩
      have hdd : (b :: rest).drop (MaxLineLen - 3) = enc.drop (i + (MaxLineLen - 3)) := by
        rw [← hbr, List.drop_drop, Nat.add_comm]
      have hfuel : enc.length - (i + (MaxLineLen - 3)) ≤ f := by
        simp only [MaxLineLen]; omega
      rw [WriteData.loop]
      simp only [hi, if_true, slice_min, hbr, chunksOf, List.map_cons, writeAll, dataLine, hdd]
      cases hw : pipe.Write ([68, 32] ++ List.take (MaxLineLen - 3) (b :: rest) ++ [10]) with
      | mk pipe1 err =>
        cases err with
        | some e => rfl
        | none => exact ih _ pipe1 hfuel
    · have hd : enc.drop i = [] := List.drop_eq_nil_of_le (by omega)
      simp [WriteData.loop, hi, hd, chunksOf, writeAll]

theorem WriteData_eq_writeAll (pipe : Writer) (payload : List Nat) :
    WriteData pipe payload = some (writeAll pipe (dataLines payload)) := by
  unfold WriteData dataLines
  have := loop_eq_writeAll (escapeParameters payload) (escapeParameters payload).length 0 pipe
    (by omega)
  simpa using this

theorem chunksOf_join (n : Nat) (hn : 0 < n) :
    ∀ (fuel : Nat) (l : List Nat), l.length ≤ fuel → (chunksOf n fuel l).flatten = l := by
  intro fuel
  induction fuel with
  | zero =>
    intro l hl
    cases l with
    | nil => rfl
    | cons b rest => simp at hl
  | succ f ih =>
    intro l hl
    cases l with
    | nil => rfl
    | cons b rest =>
      simp only [List.length_cons] at hl
      simp only [chunksOf, List.flatten_cons]
      rw [ih _ (by simp only [List.length_drop, List.length_cons]; omega)]
      exact List.take_append_drop n (b :: rest)

theorem chunksOf_bounds (n : Nat) (hn : 0 < n) :
    ∀ (fuel : Nat) (l : List Nat), ∀ c ∈ chunksOf n fuel l, 1 ≤ c.length ∧ c.length ≤ n := by
  intro fuel
  induction fuel with
  | zero =>
    intro l c hc
    cases l <;> simp [chunksOf] at hc
  | succ f ih =>
    intro l c hc
    cases l with
    | nil => simp [chunksOf] at hc
    | cons b rest =>
      simp only [chunksOf, List.mem_cons] at hc
      rcases hc with hc | hc
      · subst hc
        simp only [List.length_take, List.length_cons]
        omega
      · exact ih _ c hc

theorem chunksOf_length (n : Nat) (hn : 0 < n) :
    ∀ (fuel : Nat) (l : List Nat), l.length ≤ fuel →
      (chunksOf n fuel l).length = (l.length + n - 1) / n := by
  intro fuel
  induction fuel with
  | zero =>
    intro l hl
    cases l with
    | nil =>
      simp only [chunksOf, List.length_nil, Nat.zero_add]
      exact (Nat.div_eq_of_lt (by omega)).symm
    | cons b rest => simp at hl
  | succ f ih =>
    intro l hl
    cases l with
    | nil =>
      simp only [chunksOf, List.length_nil, Nat.zero_add]
      exact (Nat.div_eq_of_lt (by omega)).symm
    | cons b rest =>
      simp only [List.length_cons] at hl
      simp only [chunksOf, List.length_cons]
      rw [ih _ (by simp only [List.length_drop, List.length_cons]; omega)]
      simp only [List.length_drop, List.length_cons]
      by_cases hle : rest.length + 1 ≤ n
      · have h1 : rest.length + 1 - n + n - 1 = n - 1 := by omega
        have h2 : rest.length + 1 + n - 1 = (rest.length + 1 - 1) + n := by omega
        rw [h1, h2, Nat.add_div_right _ hn, Nat.div_eq_of_lt (by omega),
          Nat.div_eq_of_lt (by omega)]
      · have h2 : rest.length + 1 + n - 1 = (rest.length + 1 - n + n - 1) + n := by omega
        rw [h2, Nat.add_div_right _ hn]

theorem chunksOf_dropLast_full (n : Nat) :
    ∀ (fuel : Nat) (l : List Nat), ∀ c ∈ (chunksOf n fuel l).dropLast, c.length = n := by
  intro fuel
  induction fuel with
  | zero =>
    intro l c hc
    cases l <;> simp [chunksOf] at hc
  | succ f ih =>
    intro l c hc
    cases l with
    | nil => simp [chunksOf] at hc
    | cons b rest =>
      simp only [chunksOf] at hc
      cases hrest : chunksOf n f ((b :: rest).drop n) with
      | nil => rw [hrest] at hc; simp at hc
      | cons x xs =>
        rw [hrest, List.dropLast_cons₂, List.mem_cons] at hc
        rcases hc with hc | hc
        · subst hc
          have hne : (b :: rest).drop n ≠ [] := by
            intro h0
            rw [h0] at hrest
            cases f <;> simp [chunksOf] at hrest
          have : n < (b :: rest).length := by
            by_contra hlt
            exact hne (List.drop_eq_nil_of_le (by omega))
          simp only [List.length_take]
          omega
        · exact ih _ c (by rw [hrest]; exact hc)

theorem chunkBody_dataLine (c : List Nat) : chunkBody (dataLine c) = c := by
  simp [chunkBody, dataLine]

theorem writeAll_log (ls : List (List Nat)) :
    ∀ pipe : Writer, ∃ k, k ≤ ls.length ∧ (writeAll pipe ls).1.log = pipe.log ++ ls.take k := by
  induction ls with
  | nil => intro pipe; exact ⟨0, Nat.le_refl _, by simp [writeAll]⟩
  | cons p rest ih =>
    intro pipe
    simp only [writeAll, Writer.Write]
    cases pipe.outcome (pipe.log ++ [p]) with
    | none =>
      obtain ⟨k, hk, hlog⟩ := ih { pipe with log := pipe.log ++ [p] }
      refine ⟨k + 1, by simpa using hk, ?_⟩
      simpa using hlog
    | some e => exact ⟨1, by simp, by simp⟩

theorem writeAll_no_error (ls : List (List Nat)) :
    ∀ pipe : Writer,
      (∀ j, j < ls.length → pipe.outcome (pipe.log ++ ls.take (j + 1)) = none) →
      writeAll pipe ls = ({ pipe with log := pipe.log ++ ls }, none) := by
  induction ls with
  | nil => intro pipe _; simp [writeAll]
  | cons p rest ih =>
    intro pipe h
    have h0 : pipe.outcome (pipe.log ++ [p]) = none := by simpa using h 0 (by simp)
    simp only [writeAll, Writer.Write, h0, Option.map_none']
    rw [ih { pipe with log := pipe.log ++ [p] } (by
      intro j hj
      have := h (j + 1) (by simpa using hj)
      simpa using this)]
    simp

theorem writeAll_first_error (ls : List (List Nat)) :
    ∀ (pipe : Writer) (k e : Nat), 1 ≤ k → k ≤ ls.length →
      (∀ j, j + 1 < k → pipe.outcome (pipe.log ++ ls.take (j + 1)) = none) →
      pipe.outcome (pipe.log ++ ls.take k) = some e →
      writeAll pipe ls = ({ pipe with log := pipe.log ++ ls.take k }, some (Error.stream e)) := by
  induction ls with
  | nil => intro pipe k e h1 h2; simp at h2; omega
  | cons p rest ih =>
    intro pipe k e h1 h2 hok hfail
    obtain ⟨k, rfl⟩ : ∃ k', k = k' + 1 := ⟨k - 1, by omega⟩
    cases k with
    | zero =>
      have h0 : pipe.outcome (pipe.log ++ [p]) = some e := by simpa using hfail
      simp [writeAll, Writer.Write, h0]
    | succ k =>
      have h0 : pipe.outcome (pipe.log ++ [p]) = none := by simpa using hok 0 (by omega)
      simp only [writeAll, Writer.Write, h0, Option.map_none']
      rw [ih { pipe with log := pipe.log ++ [p] } (k + 1) e (by omega)
        (by simpa using h2)
        (by
          intro j hj
          have := hok (j + 1) (by omega)
          simpa using this)
        (by simpa using hfail)]
      simp

/-! ## The scanner on a stream that holds a complete line -/

theorem IndexByte_none (b : Nat) : ∀ l : List Nat, b ∉ l → IndexByte l b = none := by
  intro l
  induction l with
  | nil => intro _; rfl
  | cons x rest ih =>
    intro h
    simp only [List.mem_cons, not_or] at h
    have hx : x ≠ b := fun e => h.1 e.symm
    simp [IndexByte, hx, ih h.2]

theorem IndexByte_append (b : Nat) (r : List Nat) :
    ∀ l : List Nat, b ∉ l → IndexByte (l ++ b :: r) b = some l.length := by
  intro l
  induction l with
  | nil => intro _; simp [IndexByte]
  | cons x rest ih =>
    intro h
    simp only [List.mem_cons, not_or] at h
    have hx : x ≠ b := fun e => h.1 e.symm
    simp [IndexByte, hx, ih h.2]

theorem drop_past_byte (b : Nat) (l tail : List Nat) :
    (l ++ b :: tail).drop (l.length + 1) = tail := by
  induction l with
  | nil => rfl
  | cons x rest ih => simp [ih]

theorem split_of_no_newline (s : Scanner) (herr : s.err = none) (h : 10 ∉ s.buf) :
    s.split = (0, none) := by
  unfold Scanner.split ScanLines
  simp [herr, IndexByte_none 10 s.buf h]

theorem split_of_newline (s : Scanner) (line tail : List Nat) (herr : s.err = none)
    (hline : 10 ∉ line) (hbuf : s.buf = line ++ 10 :: tail) :
    s.split = (line.length + 1, some (dropCR line)) := by
  unfold Scanner.split ScanLines
  simp [herr, hbuf, IndexByte_append 10 tail line hline]

theorem shift_fields (s : Scanner) :
    s.shift.r = s.r ∧ s.shift.buf = s.buf ∧ s.shift.cap = s.cap ∧ s.shift.err = s.err ∧
      s.shift.start ≤ s.start := by
  unfold Scanner.shift
  split <;> simp

theorem shift_not_full (s : Scanner) (hlen : s.buf.length < MaxScanTokenSize) :
    ¬ (s.shift.start + s.shift.buf.length = s.shift.cap ∧ s.shift.cap ≥ MaxScanTokenSize) := by
  unfold Scanner.shift
  split
  · rename_i h
    simp only
    omega
  · rename_i h
    omega

theorem grow_fields (s : Scanner) :
    s.grow.r = s.r ∧ s.grow.buf = s.buf ∧ s.grow.err = s.err := by
  unfold Scanner.grow
  split <;> simp

theorem grow_room (s : Scanner) (hinv : s.start + s.buf.length ≤ s.cap)
    (hfull : ¬ (s.start + s.buf.length = s.cap ∧ s.cap ≥ MaxScanTokenSize)) :
    s.grow.start + s.grow.buf.length < s.grow.cap := by
  unfold Scanner.grow
  split
  · rename_i h
    simp only [Assuan.min, startBufSize, MaxScanTokenSize] at *
    split <;> split <;> omega
  · omega

theorem readLoop_data (space left : Nat) (r : Reader) (c : List Nat) (cs : List (List Nat))
    (hr : r.chunks = c :: cs) (hc : c ≠ []) (hspace : 0 < space) :
    ∃ data tail, Scanner.readLoop space (left + 1) r
        = (data, none, { r with chunks := tail }) ∧
      data ≠ [] ∧ data.length ≤ space ∧ data ++ tail.flatten = r.chunks.flatten ∧
      ((∀ x ∈ r.chunks, x ≠ []) → ∀ x ∈ tail, x ≠ []) := by
  have hclen : 0 < c.length := List.length_pos.mpr hc
  by_cases hfit : c.length ≤ space
  · refine ⟨c, cs, ?_, hc, hfit, by simp [hr], ?_⟩
    · simp [Scanner.readLoop, Reader.Read, hr, hfit, hclen]
    · intro h x hx
      exact h x (by rw [hr]; exact List.mem_cons_of_mem _ hx)
  · have htake : 0 < (c.take space).length := by
      simp only [List.length_take]; omega
    refine ⟨c.take space, c.drop space :: cs, ?_, List.length_pos.mp htake, ?_, ?_, ?_⟩
    · have hlt : 0 < space ∧ 0 < c.length := ⟨hspace, hclen⟩
      simp [Scanner.readLoop, Reader.Read, hr, hfit, hlt]
    · simp only [List.length_take]; omega
    · rw [hr]
      simp only [List.flatten_cons]
      rw [← List.append_assoc, List.take_append_drop]
    · intro h x hx
      rcases List.mem_cons.mp hx with hx | hx
      · subst hx
        apply List.length_pos.mp
        simp only [List.length_drop]; omega
      · exact h x (by rw [hr]; exact List.mem_cons_of_mem _ hx)

theorem scanLoop_line (line rest : List Nat) (hline : 10 ∉ line)
    (hlen : line.length < MaxScanTokenSize) :
    ∀ (fuel : Nat) (s : Scanner),
      s.err = none →
      s.buf ++ s.r.chunks.flatten = line ++ 10 :: rest →
      (∀ c ∈ s.r.chunks, c ≠ []) →
      s.start + s.buf.length ≤ s.cap →
      s.r.chunks.flatten.length + 1 ≤ fuel →
      ∃ s1, Scanner.scanLoop fuel s = some (some (dropCR line), s1) ∧
        s1.err = none ∧ s1.buf ++ s1.r.chunks.flatten = rest ∧
        (∀ c ∈ s1.r.chunks, c ≠ []) ∧ s1.start + s1.buf.length ≤ s1.cap ∧
        s1.r.final = s.r.final := by
  intro fuel
  induction fuel with
  | zero => intro s _ _ _ _ hfuel; omega
  | succ f ih =>
    intro s herr hcat hne hinv hfuel
    have key : (∃ a, line = s.buf ++ a ∧ s.r.chunks.flatten = a ++ 10 :: rest) ∨
        (∃ tail, s.buf = line ++ 10 :: tail ∧ rest = tail ++ s.r.chunks.flatten) := by
      rcases List.append_eq_append_iff.mp hcat with ⟨a, ha, hJ⟩ | ⟨c, hc, hJ⟩
      · exact Or.inl ⟨a, ha, hJ⟩
      · cases c with
        | nil =>
          simp only [List.append_nil] at hc
          simp only [List.nil_append] at hJ
          exact Or.inl ⟨[], by rw [hc, List.append_nil], by rw [← hJ, List.nil_append]⟩
        | cons x tail =>
          simp only [List.cons_append, List.cons.injEq] at hJ
          obtain ⟨hx, hrest⟩ := hJ
          subst hx
          exact Or.inr ⟨tail, hc, hrest⟩
    rcases key with ⟨a, ha, hJ⟩ | ⟨tail, hc, hrest⟩
    · -- the window is a prefix of the line: more data is needed
      have hnl : 10 ∉ s.buf := by
        intro hmem
        exact hline (by rw [ha]; exact List.mem_append_left _ hmem)
      have hblen : s.buf.length < MaxScanTokenSize := by
        have := congrArg List.length ha
        simp only [List.length_append] at this
        omega
      obtain ⟨hsr, hsb, hsc, hse, hss⟩ := shift_fields s
      have hnf := shift_not_full s hblen
      have hinv2 : s.shift.start + s.shift.buf.length ≤ s.shift.cap := by
        rw [hsb, hsc]; omega
      obtain ⟨hgr, hgb, hge⟩ := grow_fields s.shift
      have hroom := grow_room s.shift hinv2 hnf
      obtain ⟨c0, cs, hchunks⟩ : ∃ c0 cs, s.r.chunks = c0 :: cs := by
        cases hch : s.r.chunks with
        | nil => rw [hch] at hJ; simp at hJ
        | cons c0 cs => exact ⟨c0, cs, rfl⟩
      have hc0 : c0 ≠ [] := hne c0 (by rw [hchunks]; exact List.mem_cons_self _ _)
      obtain ⟨data, tail, hread, hdne, hdlen, hdcat, hdne2⟩ :=
        readLoop_data (s.shift.grow.cap - (s.shift.grow.start + s.shift.grow.buf.length))
          maxConsecutiveEmptyReads s.shift.grow.r c0 cs (by rw [hgr, hsr]; exact hchunks) hc0
          (by omega)
      have hdpos : 0 < data.length := List.length_pos.mpr hdne
      have hflat : data ++ tail.flatten = s.r.chunks.flatten := by
        rw [hdcat, hgr, hsr]
      obtain ⟨s1, hs1, h1, h2, h3, h4, h5⟩ := ih
        { s.shift.grow with r := { s.shift.grow.r with chunks := tail },
                            buf := s.shift.grow.buf ++ data, err := none }
        rfl
        (by
          simp only [hgb, hsb, List.append_assoc]
          rw [hflat]; exact hcat)
        (by
          simp only
          exact hdne2 (by rw [hgr, hsr]; exact hne))
        (by simp only [List.length_append]; omega)
        (by
          simp only
          have := congrArg List.length hflat
          simp only [List.length_append] at this
          omega)
      refine ⟨s1, ?_, h1, h2, h3, h4, ?_⟩
      · rw [Scanner.scanLoop]
        simp only [split_of_no_newline s herr hnl, herr, Option.isSome_none, Bool.false_eq_true,
          if_false, hnf, hread]
        exact hs1
      · rw [h5]; simp only [hgr, hsr]
    · -- the window already holds the line feed
      refine ⟨{ s with buf := s.buf.drop (line.length + 1), start := s.start + (line.length + 1) },
        ?_, herr, ?_, hne, ?_, rfl⟩
      · rw [Scanner.scanLoop]
        simp only [split_of_newline s line tail herr hline hc]
      · simp only [hc, drop_past_byte, hrest]
      · have hbl := congrArg List.length hc
        simp only [List.length_append, List.length_cons] at hbl
        simp only [List.length_drop]
        omega

theorem flatten_length_lt_size (r : Reader) : r.chunks.flatten.length < r.size := by
  unfold Reader.size
  have : ∀ cs : List (List Nat), cs.flatten.length ≤ (cs.map (fun c => c.length + 1)).sum := by
    intro cs
    induction cs with
    | nil => simp
    | cons c rest ih => simp only [List.flatten_cons, List.length_append, List.map_cons,
        List.sum_cons]; omega
  have := this r.chunks
  omega

theorem ReadLine_first_line (mapUpper : List Nat → List Nat) (pipe : Reader)
    (line rest : List Nat) (hline : 10 ∉ line) (hlen : line.length < MaxScanTokenSize)
    (hcat : pipe.chunks.flatten = line ++ 10 :: rest) (hne : ∀ c ∈ pipe.chunks, c ≠ [])
    (huse : (!HasPrefix (dropCR line) [35] && !HasPrefix (dropCR line) [83, 32]
      && !isBlank (dropCR line)) = true) :
    ∃ pipe1, ReadLine mapUpper pipe = some (ReadLine.parse mapUpper (dropCR line), pipe1) := by
  obtain ⟨s1, hs1, -⟩ := scanLoop_line line rest hline hlen ((NewScanner pipe).r.size + 2)
    (NewScanner pipe) rfl (by simpa [NewScanner] using hcat) hne (by simp [NewScanner])
    (by
      have := flatten_length_lt_size pipe
      simp only [NewScanner]
      omega)
  refine ⟨s1.r, ?_⟩
  simp only [ReadLine, ReadLine.loop, Scanner.Scan, hs1, huse, if_true, Option.map_some']

/-! ## The bounds on the loops of the reader are never reached -/

theorem size_cons (r : Reader) (c : List Nat) (cs : List (List Nat)) (h : r.chunks = c :: cs) :
    r.size = c.length + 1 + ({ r with chunks := cs } : Reader).size := by
  simp only [Reader.size, h, List.map_cons, List.sum_cons]
  omega

theorem readLoop_size (space : Nat) :
    ∀ (left : Nat) (r : Reader),
      (Scanner.readLoop space left r).2.2.size + (Scanner.readLoop space left r).1.length
          ≤ r.size ∧
        ((Scanner.readLoop space left r).2.1 = none →
          0 < (Scanner.readLoop space left r).1.length) := by
  intro left
  induction left with
  | zero => intro r; simp [Scanner.readLoop]
  | succ k ih =>
    intro r
    cases hch : r.chunks with
    | nil => simp [Scanner.readLoop, Reader.Read, hch]
    | cons c cs =>
      have hsz := size_cons r c cs hch
      by_cases hfit : c.length ≤ space
      · by_cases hpos : 0 < c.length
        · simp only [Scanner.readLoop, Reader.Read, hch, hfit, if_true, hpos]
          exact ⟨by omega, fun _ => trivial⟩
        · have h := ih { r with chunks := cs }
          simp only [Scanner.readLoop, Reader.Read, hch, hfit, if_true, hpos, if_false]
          exact ⟨by omega, h.2⟩
      · by_cases hpos : 0 < (c.take space).length
        · have hsz2 : ({ r with chunks := c.drop space :: cs } : Reader).size
              + (c.take space).length ≤ r.size := by
            rw [hsz, size_cons { r with chunks := c.drop space :: cs } (c.drop space) cs rfl]
            simp only [List.length_drop, List.length_take]
            omega
          simp only [Scanner.readLoop, Reader.Read, hch, hfit, if_false, hpos, if_true]
          exact ⟨hsz2, fun _ => trivial⟩
        · have h := ih { r with chunks := c.drop space :: cs }
          have hsz2 : ({ r with chunks := c.drop space :: cs } : Reader).size ≤ r.size := by
            rw [hsz, size_cons { r with chunks := c.drop space :: cs } (c.drop space) cs rfl]
            simp only [List.length_drop]
            omega
          simp only [Scanner.readLoop, Reader.Read, hch, hfit, if_false, hpos]
          exact ⟨by omega, h.2⟩

theorem IndexByte_lt (b : Nat) : ∀ (l : List Nat) (i : Nat), IndexByte l b = some i → i < l.length := by
  intro l
  induction l with
  | nil => intro i h; simp [IndexByte] at h
  | cons x rest ih =>
    intro i h
    by_cases hx : x = b
    · simp only [IndexByte, hx, if_true, Option.some.injEq] at h
      subst h; simp
    · simp only [IndexByte, hx, if_false, Option.map_eq_some'] at h
      obtain ⟨j, hj, rfl⟩ := h
      have := ih j hj
      simp only [List.length_cons]; omega

theorem split_token_advance (s : Scanner) (token : List Nat) (h : s.split.2 = some token) :
    1 ≤ s.split.1 ∧ s.split.1 ≤ s.buf.length := by
  unfold Scanner.split at h ⊢
  by_cases hc : s.buf.length > 0 ∨ s.err.isSome = true
  · simp only [hc, if_true] at h ⊢
    unfold ScanLines at h ⊢
    by_cases he : (s.err.isSome && s.buf.isEmpty) = true
    · simp [he] at h
    · simp only [he, Bool.false_eq_true, if_false] at h ⊢
      cases hi : IndexByte s.buf 10 with
      | some i =>
        have := IndexByte_lt 10 s.buf i hi
        simp only
        omega
      | none =>
        simp only [hi] at h ⊢
        by_cases ha : s.err.isSome = true
        · simp only [ha, if_true]
          have hne : s.buf.isEmpty = false := by simpa [ha] using he
          have : s.buf ≠ [] := by
            intro h0; rw [h0] at hne; simp at hne
          have := List.length_pos.mpr this
          exact ⟨this, Nat.le_refl _⟩
        · simp [ha] at h
  · simp [hc] at h

theorem scanLoop_total :
    ∀ (fuel : Nat) (s : Scanner), (if s.err.isSome then 0 else s.r.size) < fuel →
      ∃ tok s1, Scanner.scanLoop fuel s = some (tok, s1) ∧
        s1.buf.length + s1.r.size ≤ s.buf.length + s.r.size ∧
        (tok.isSome → s1.buf.length + s1.r.size < s.buf.length + s.r.size) := by
  intro fuel
  induction fuel with
  | zero => intro s h; omega
  | succ f ih =>
    intro s hfuel
    cases htok : s.split.2 with
    | some token =>
      have hadv := split_token_advance s token htok
      refine ⟨some token,
        { s with buf := s.buf.drop s.split.1, start := s.start + s.split.1 },
        by rw [Scanner.scanLoop]; simp only [htok], ?_, fun _ => ?_⟩
      · simp only [List.length_drop]; omega
      · simp only [List.length_drop]; omega
    | none =>
      by_cases herr : s.err.isSome = true
      · refine ⟨none, { s with buf := [], start := 0 },
          by rw [Scanner.scanLoop]; simp only [htok, herr, if_true], ?_, ?_⟩
        · simp
        · intro h; simp at h
      · obtain ⟨hsr, hsb, hsc, hse, hss⟩ := shift_fields s
        by_cases hfull : s.shift.start + s.shift.buf.length = s.shift.cap
            ∧ s.shift.cap ≥ MaxScanTokenSize
        · refine ⟨none, { s.shift with err := some Error.scanTooLong },
            by rw [Scanner.scanLoop]; simp only [htok, herr, hfull]; rfl, ?_, ?_⟩
          · simp only [hsb, hsr]; omega
          · intro h; simp at h
        · obtain ⟨hgr, hgb, hge⟩ := grow_fields s.shift
          have hrl := readLoop_size
            (s.shift.grow.cap - (s.shift.grow.start + s.shift.grow.buf.length))
            (maxConsecutiveEmptyReads + 1) s.shift.grow.r
          rcases hrd : Scanner.readLoop
            (s.shift.grow.cap - (s.shift.grow.start + s.shift.grow.buf.length))
            (maxConsecutiveEmptyReads + 1) s.shift.grow.r with ⟨data, e, r1⟩
          rw [hrd] at hrl
          simp only [hgr, hsr] at hrl
          have hsize : 1 ≤ s.r.size := by unfold Reader.size; omega
          have hfuel2 : s.r.size < f + 1 := by simpa [herr] using hfuel
          obtain ⟨tok, s1, hs1, hle, hlt⟩ := ih
            { s.shift.grow with r := r1, buf := s.shift.grow.buf ++ data, err := e }
            (by
              simp only
              split
              · omega
              · rename_i hnone
                have := hrl.2 (by simpa using hnone)
                omega)
          simp only [List.length_append, hgb, hsb] at hle hlt
          refine ⟨tok, s1, ?_, by omega, fun h => by have := hlt h; omega⟩
          rw [Scanner.scanLoop]
          simp only [htok, herr, Bool.false_eq_true, if_false, hfull, hrd]
          exact hs1

theorem ReadLine_loop_total (mapUpper : List Nat → List Nat) :
    ∀ (fuel : Nat) (s : Scanner), s.buf.length + s.r.size < fuel →
      ∃ res, ReadLine.loop mapUpper fuel s = some res := by
  intro fuel
  induction fuel with
  | zero => intro s h; omega
  | succ f ih =>
    intro s hfuel
    obtain ⟨tok, s1, hs1, hle, hlt⟩ := scanLoop_total (s.r.size + 2) s (by split <;> omega)
    cases tok with
    | none =>
      exact ⟨(⟨[], [], s1.Err⟩, s1), by simp only [ReadLine.loop, Scanner.Scan, hs1]⟩
    | some line =>
      have hlt2 := hlt rfl
      by_cases huse : (!HasPrefix line [35] && !HasPrefix line [83, 32] && !isBlank line) = true
      · exact ⟨(ReadLine.parse mapUpper line, s1),
          by simp only [ReadLine.loop, Scanner.Scan, hs1, huse, if_true]⟩
      · obtain ⟨res, hres⟩ := ih s1 (by omega)
        exact ⟨res, by simp only [ReadLine.loop, Scanner.Scan, hs1, huse, if_false]; exact hres⟩

/-- `ReadLine` always returns: the bound on its loops is never the reason it stops. -/
theorem ReadLine_total (mapUpper : List Nat → List Nat) (pipe : Reader) :
    ∃ res pipe1, ReadLine mapUpper pipe = some (res, pipe1) := by
  obtain ⟨res, hres⟩ := ReadLine_loop_total mapUpper (pipe.size + 2) (NewScanner pipe)
    (by simp only [NewScanner, List.length_nil]; omega)
  exact ⟨res.1, res.2.r, by simp only [ReadLine, hres, Option.map_some']⟩

/-! ## Facts used by the framing round trip -/

theorem asciiUpper_low (c t : Nat) (ht : t < 65) (h : asciiUpper c = t) : c = t := by
  unfold asciiUpper at h
  split at h <;> omega

theorem asciiUpper_lt (c : Nat) (h : c < 128) : asciiUpper c < 128 := by
  unfold asciiUpper
  split <;> omega

theorem asciiUpper_idem (c : Nat) : asciiUpper (asciiUpper c) = asciiUpper c := by
  by_cases h : 97 ≤ c ∧ c ≤ 122
  · have h2 : ¬ (97 ≤ c - 32 ∧ c - 32 ≤ 122) := by omega
    simp only [asciiUpper, h, h2, and_self, if_true, if_false]
  · simp only [asciiUpper, h, if_false]

theorem ToUpper_ascii (mapUpper : List Nat → List Nat) (s : List Nat)
    (h : ∀ c ∈ s, c < 128) : ToUpper mapUpper s = s.map asciiUpper := by
  have : s.all (fun c => decide (c < 128)) = true := by
    simpa [List.all_eq_true] using h
  simp [ToUpper, this]

theorem ToUpper_idem_ascii (mapUpper : List Nat → List Nat) (s : List Nat)
    (h : ∀ c ∈ s, c < 128) : ToUpper mapUpper (ToUpper mapUpper s) = ToUpper mapUpper s := by
  rw [ToUpper_ascii mapUpper s h, ToUpper_ascii mapUpper (s.map asciiUpper)]
  · simp [List.map_map, Function.comp_def, asciiUpper_idem]
  · intro c hc
    obtain ⟨d, hd, rfl⟩ := List.mem_map.mp hc
    exact asciiUpper_lt d (h d hd)

theorem hexDigit_not_reserved (n : Nat) :
    hexDigit n ≠ 10 ∧ hexDigit n ≠ 13 ∧ hexDigit n ≠ 32 := by
  unfold hexDigit
  split <;> omega

theorem escape_not_reserved (p : List Nat) :
    ∀ b ∈ escapeParameters p, b ≠ 10 ∧ b ≠ 13 ∧ b ≠ 32 := by
  induction p with
  | nil => intro b hb; simp [escapeParameters] at hb
  | cons x rest ih =>
    intro b hb
    by_cases hx : reserved x = true
    · simp only [escapeParameters, hx, if_true, List.mem_cons] at hb
      rcases hb with hb | hb | hb | hb
      · subst hb; decide
      · subst hb; exact hexDigit_not_reserved _
      · subst hb; exact hexDigit_not_reserved _
      · exact ih b hb
    · have hx2 : reserved x = false := by simpa using hx
      simp only [escapeParameters, hx2, Bool.false_eq_true, if_false, List.mem_cons] at hb
      rcases hb with hb | hb
      · subst hb
        simp only [reserved, Bool.or_eq_false_iff, beq_eq_false_iff_ne] at hx2
        exact ⟨hx2.1.1.1, hx2.1.1.2, hx2.2⟩
      · exact ih b hb

theorem escape_length_le (p : List Nat) : (escapeParameters p).length ≤ 3 * p.length := by
  induction p with
  | nil => simp [escapeParameters]
  | cons x rest ih =>
    simp only [escapeParameters]
    split <;> simp only [List.length_cons] <;> omega

theorem dropCR_of_last (l : List Nat) (h : l.getLast? ≠ some 13) : dropCR l = l := by
  simp [dropCR, h]

theorem isBlank_cons_false (b : Nat) (rest : List Nat) (hb : b < 128)
    (hws : b ≠ 9 ∧ b ≠ 10 ∧ b ≠ 11 ∧ b ≠ 12 ∧ b ≠ 13 ∧ b ≠ 32) : isBlank (b :: rest) = false := by
  have h0 : spaceRuneLen (b :: rest) = 0 := by
    unfold spaceRuneLen
    have h1 : ¬ (b = 9 ∨ b = 10 ∨ b = 11 ∨ b = 12 ∨ b = 13 ∨ b = 32) := by omega
    have h2 : b ≠ 0xC2 := by omega
    have h3 : b ≠ 0xE1 := by omega
    have h4 : b ≠ 0xE2 := by omega
    have h5 : b ≠ 0xE3 := by omega
    simp only [h1, h2, h3, h4, h5, if_false]
  simp [isBlank, trimLeftSpace, h0]

theorem SplitN_at_space (cmd tail : List Nat) (h : 32 ∉ cmd) :
    SplitN (cmd ++ 32 :: tail) = [cmd, tail] := by
  unfold SplitN
  rw [IndexByte_append 32 tail cmd h]
  simp only [List.take_left', drop_past_byte]

/-- The line `WriteLine` sends for an ASCII command without white space that is
neither a comment nor a status marker is read back by `ReadLine.parse` as the
upper-cased command and the original parameters. -/
theorem parse_written_line (mapUpper : List Nat → List Nat) (cmd params : List Nat)
    (hascii : ∀ c ∈ cmd, c < 128) (hsp : 32 ∉ cmd) :
    ReadLine.parse mapUpper (ToUpper mapUpper cmd ++ 32 :: escapeParameters params)
      = ⟨ToUpper mapUpper cmd, params, none⟩ := by
  have hU : 32 ∉ ToUpper mapUpper cmd := by
    rw [ToUpper_ascii mapUpper cmd hascii]
    intro hmem
    obtain ⟨d, hd, hd2⟩ := List.mem_map.mp hmem
    have := asciiUpper_low d 32 (by decide) hd2
    exact hsp (this ▸ hd)
  simp only [ReadLine.parse, SplitN_at_space _ _ hU, unescape_escape,
    ToUpper_idem_ascii mapUpper cmd hascii]

theorem written_line_usable (mapUpper : List Nat → List Nat) (cmd tail : List Nat)
    (hne : cmd ≠ []) (hascii : ∀ c ∈ cmd, c < 128)
    (hws : ∀ c ∈ cmd, c ≠ 9 ∧ c ≠ 10 ∧ c ≠ 11 ∧ c ≠ 12 ∧ c ≠ 13 ∧ c ≠ 32)
    (hhash : cmd.head? ≠ some 35) (hS : cmd ≠ [83] ∧ cmd ≠ [115]) :
    (!HasPrefix (ToUpper mapUpper cmd ++ 32 :: tail) [35]
      && !HasPrefix (ToUpper mapUpper cmd ++ 32 :: tail) [83, 32]
      && !isBlank (ToUpper mapUpper cmd ++ 32 :: tail)) = true := by
  rw [ToUpper_ascii mapUpper cmd hascii]
  cases cmd with
  | nil => exact absurd rfl hne
  | cons c rest =>
    have hc := hws c (List.mem_cons_self _ _)
    have hc128 := hascii c (List.mem_cons_self _ _)
    have hu128 := asciiUpper_lt c hc128
    have hlow : ∀ t, t < 65 → c ≠ t → asciiUpper c ≠ t :=
      fun t ht hct h => hct (asciiUpper_low c t ht h)
    have h35 : asciiUpper c ≠ 35 := hlow 35 (by decide) (by simpa using hhash)
    have hblank : isBlank (asciiUpper c :: (rest.map asciiUpper ++ 32 :: tail)) = false :=
      isBlank_cons_false _ _ hu128
        ⟨hlow 9 (by decide) hc.1, hlow 10 (by decide) hc.2.1, hlow 11 (by decide) hc.2.2.1,
         hlow 12 (by decide) hc.2.2.2.1, hlow 13 (by decide) hc.2.2.2.2.1,
         hlow 32 (by decide) hc.2.2.2.2.2⟩
    have hstatus : HasPrefix (asciiUpper c :: (rest.map asciiUpper ++ 32 :: tail)) [83, 32]
        = false := by
      cases rest with
      | nil =>
        have h83 : asciiUpper c ≠ 83 := by
          intro h
          unfold asciiUpper at h
          split at h
          · exact hS.2 (by congr 1; omega)
          · exact hS.1 (by congr 1)
        simp [HasPrefix, h83]
      | cons d rest2 =>
        have hd := hws d (List.mem_cons_of_mem _ (List.mem_cons_self _ _))
        have hd32 : asciiUpper d ≠ 32 := fun h => hd.2.2.2.2.2 (asciiUpper_low d 32 (by decide) h)
        simp [HasPrefix, hd32]
    simp only [List.map_cons, List.cons_append, hblank, hstatus]
    simp [HasPrefix, h35]

/-! ## Framing -/

/-- C1 (as amended). Framing round trip: for every ASCII command that is
non-empty, holds no white space, does not begin with `#` and is not `S` or `s`,
and for any parameters with `len(command) + len(parameters) + 2 ≤ 1000`,
`ReadLine` on a stream that delivers exactly the bytes written by
`WriteLine(stream, command, parameters)`, in reads of any non-zero sizes,
returns `(ToUpper(command), parameters)` with a nil error. -/
theorem framing_round_trip (mapUpper : List Nat → List Nat)
    (outcome : List (List Nat) → Option Nat) (cmd params : List Nat) (pipe : Reader)
    (hne : cmd ≠ []) (hascii : ∀ c ∈ cmd, c < 128)
    (hws : ∀ c ∈ cmd, c ≠ 9 ∧ c ≠ 10 ∧ c ≠ 11 ∧ c ≠ 12 ∧ c ≠ 13 ∧ c ≠ 32)
    (hhash : cmd.head? ≠ some 35) (hS : cmd ≠ [83] ∧ cmd ≠ [115])
    (hlen : cmd.length + params.length + 2 ≤ MaxLineLen)
    (hreads : ∀ c ∈ pipe.chunks, c ≠ [])
    (hbytes : pipe.chunks.flatten
      = (WriteLine mapUpper ⟨[], outcome⟩ cmd params).1.log.flatten) :
    (ReadLine mapUpper pipe).map Prod.fst = some ⟨ToUpper mapUpper cmd, params, none⟩ := by
  have hn : ¬ cmd.length + params.length + 2 > MaxLineLen := by omega
  have hcat : pipe.chunks.flatten
      = (ToUpper mapUpper cmd ++ 32 :: escapeParameters params) ++ 10 :: [] := by
    rw [hbytes]
    simp [WriteLine, hn, Writer.Write]
  have hesc := escape_not_reserved params
  have hUlen : (ToUpper mapUpper cmd).length = cmd.length := by
    rw [ToUpper_ascii mapUpper cmd hascii, List.length_map]
  have hU10 : 10 ∉ ToUpper mapUpper cmd := by
    rw [ToUpper_ascii mapUpper cmd hascii]
    intro hmem
    obtain ⟨d, hd, hd2⟩ := List.mem_map.mp hmem
    exact (hws d hd).2.1 (asciiUpper_low d 10 (by decide) hd2)
  have hline : 10 ∉ ToUpper mapUpper cmd ++ 32 :: escapeParameters params := by
    intro hmem
    rcases List.mem_append.mp hmem with h | h
    · exact hU10 h
    · rcases List.mem_cons.mp h with h | h
      · omega
      · exact (hesc 10 h).1 rfl
  have hsize : (ToUpper mapUpper cmd ++ 32 :: escapeParameters params).length
      < MaxScanTokenSize := by
    have := escape_length_le params
    simp only [List.length_append, List.length_cons, hUlen, MaxScanTokenSize]
    simp only [MaxLineLen] at hlen
    omega
  have hcr : dropCR (ToUpper mapUpper cmd ++ 32 :: escapeParameters params)
      = ToUpper mapUpper cmd ++ 32 :: escapeParameters params := by
    apply dropCR_of_last
    intro hlast
    rw [List.getLast?_append_of_ne_nil _ (List.cons_ne_nil _ _)] at hlast
    rcases List.mem_cons.mp (List.mem_of_getLast?_eq_some hlast) with h | h
    · omega
    · exact (hesc 13 h).2.1 rfl
  have hsp : 32 ∉ cmd := fun h => (hws 32 h).2.2.2.2.2 rfl
  obtain ⟨pipe1, hread⟩ := ReadLine_first_line mapUpper pipe _ [] hline hsize hcat hreads
    (by rw [hcr]; exact written_line_usable mapUpper cmd _ hne hascii hws hhash hS)
  rw [hread, hcr, parse_written_line mapUpper cmd params hascii hsp]
  rfl

/-- C1 at `WriteLine(stream, "OK", "done")` followed by `ReadLine(stream)`:
the result is `("OK", "done")` with a nil error. -/
theorem framing_round_trip_witness :
    (ReadLine id ⟨[bytes ("OK done\n")], none⟩).map Prod.fst
      = some ⟨ToUpper id (bytes ("OK")), bytes ("done"), none⟩ :=
  framing_round_trip id (fun _ => none) (bytes ("OK")) (bytes ("done"))
    ⟨[bytes ("OK done\n")], none⟩ (by decide) (by decide) (by decide) (by decide) (by decide)
    (by decide) (by decide) (by decide)

/-- C1 as stated fails: the command `S` is non-empty and holds no white space,
`WriteLine(stream, "S", "x")` writes the single line `S x`, and `ReadLine` on
those bytes discards it as a status line and returns `("", "", nil)` at the end
of the stream instead of `("S", "x", nil)`. -/
theorem framing_round_trip_fails_for_status_command :
    (bytes ("S")).length + (bytes ("x")).length + 2 ≤ MaxLineLen ∧
    (WriteLine id ⟨[], fun _ => none⟩ (bytes ("S")) (bytes ("x"))).1.log = [bytes ("S x\n")] ∧
    (ReadLine id ⟨[bytes ("S x\n")], none⟩).map Prod.fst = some ⟨[], [], none⟩ ∧
    (ReadLine id ⟨[bytes ("S x\n")], none⟩).map Prod.fst
      ≠ some ⟨ToUpper id (bytes ("S")), bytes ("x"), none⟩ := by
  decide

/-- Two more commands without white space that are not read back: `WriteComment`
sends `# x`, which `ReadLine` discards as a comment, and the lower-case command
`s` goes out as the status marker `S`. -/
theorem comment_and_lower_case_status_discarded :
    (WriteComment id ⟨[], fun _ => none⟩ (bytes ("x"))).1.log = [bytes ("# x\n")] ∧
    (ReadLine id ⟨[bytes ("# x\n")], none⟩).map Prod.fst = some ⟨[], [], none⟩ ∧
    (WriteLine id ⟨[], fun _ => none⟩ (bytes ("s")) (bytes ("x"))).1.log = [bytes ("S x\n")] := by
  decide

/-! ## `WriteLine` -/

/-- C2. Length enforcement: `WriteLine` returns the "too long" error exactly when
`len(cmd) + len(params) + 2 > MaxLineLen` (lengths of the unescaped strings);
in that case no write reaches the stream, and otherwise exactly one write does. -/
theorem WriteLine_length_enforcement (mapUpper : List Nat → List Nat) (pipe : Writer)
    (cmd params : List Nat) :
    ((WriteLine mapUpper pipe cmd params).2 = some Error.lineTooLong
        ↔ cmd.length + params.length + 2 > MaxLineLen) ∧
    (cmd.length + params.length + 2 > MaxLineLen →
        (WriteLine mapUpper pipe cmd params).1.log = pipe.log) ∧
    (cmd.length + params.length + 2 ≤ MaxLineLen →
        ∃ line, (WriteLine mapUpper pipe cmd params).1.log = pipe.log ++ [line]) := by
  unfold WriteLine
  by_cases h : cmd.length + params.length + 2 > MaxLineLen
  · simp [h]
  · have hle : cmd.length + params.length + 2 ≤ MaxLineLen := by omega
    simp only [h, if_false, Writer.Write, hle, false_implies, true_implies, iff_false, true_and]
    refine ⟨?_, _, rfl⟩
    cases pipe.outcome (pipe.log ++
      [ToUpper mapUpper cmd ++ [32] ++ escapeParameters params ++ [10]]) <;> simp

/-- Evaluation of C2 on both sides of the bound: a 999-byte parameter with a
one-byte command is refused without a write, and `OK done` is written once. -/
theorem WriteLine_length_enforcement_witness :
    (WriteLine id ⟨[], fun _ => none⟩ [65] (List.replicate 998 97)).2 = some Error.lineTooLong ∧
    (WriteLine id ⟨[], fun _ => none⟩ [65] (List.replicate 998 97)).1.log = [] ∧
    ∃ line, (WriteLine id ⟨[], fun _ => none⟩ (bytes ("OK")) (bytes ("done"))).1.log
      = [] ++ [line] :=
  ⟨(WriteLine_length_enforcement id ⟨[], fun _ => none⟩ [65] (List.replicate 998 97)).1.2
      (by rw [List.length_replicate]; decide),
   (WriteLine_length_enforcement id ⟨[], fun _ => none⟩ [65] (List.replicate 998 97)).2.1
      (by rw [List.length_replicate]; decide),
   (WriteLine_length_enforcement id ⟨[], fun _ => none⟩ (bytes ("OK")) (bytes ("done"))).2.2
      (by decide)⟩

/-- C3. For `cmd` and `params` that pass the length check, `WriteLine` issues a
single write whose bytes are `ToUpper(cmd) ++ " " ++ escapeParameters(params) ++ "\n"`
and returns exactly what that write returned. -/
theorem WriteLine_single_write (mapUpper : List Nat → List Nat) (pipe : Writer)
    (cmd params : List Nat) (h : cmd.length + params.length + 2 ≤ MaxLineLen) :
    (WriteLine mapUpper pipe cmd params).1.log
      = pipe.log ++ [ToUpper mapUpper cmd ++ [32] ++ escapeParameters params ++ [10]] ∧
    (WriteLine mapUpper pipe cmd params).2
      = (pipe.Write (ToUpper mapUpper cmd ++ [32] ++ escapeParameters params ++ [10])).2 := by
  have hn : ¬ cmd.length + params.length + 2 > MaxLineLen := by omega
  simp [WriteLine, hn, Writer.Write]

/-- C3 at `WriteLine(stream, "ok", "a b")` on a stream whose first write fails with code 7. -/
theorem WriteLine_single_write_witness :
    (bytes ("ok")).length + (bytes ("a b")).length + 2 ≤ MaxLineLen ∧
    (WriteLine id ⟨[], fun _ => some 7⟩ (bytes ("ok")) (bytes ("a b"))).1.log
      = [] ++ [ToUpper id (bytes ("ok")) ++ [32] ++ escapeParameters (bytes ("a b")) ++ [10]] ∧
    (WriteLine id ⟨[], fun _ => some 7⟩ (bytes ("ok")) (bytes ("a b"))).2
      = (Writer.Write ⟨[], fun _ => some 7⟩
          (ToUpper id (bytes ("ok")) ++ [32] ++ escapeParameters (bytes ("a b")) ++ [10])).2 :=
  ⟨by decide, WriteLine_single_write id ⟨[], fun _ => some 7⟩ (bytes ("ok")) (bytes ("a b"))
    (by decide)⟩

/-- C4. Codec round trip: for every byte sequence `x`,
`unescapeParameters(escapeParameters(x))` succeeds and returns `x`. -/
theorem codec_round_trip (x : List Nat) :
    unescapeParameters (escapeParameters x) = Except.ok x :=
  unescape_escape x

/-! ## `WriteData` -/

/-- C5. Reconstruction: on a stream whose writes succeed, `WriteData` returns
nil, each emitted write starts with `"D "` and ends with a line feed, the chunk
bodies between them concatenate in emission order to `escapeParameters(p)`, and
unescaping that concatenation gives `p`. -/
theorem WriteData_reconstruction (pipe : Writer) (p : List Nat)
    (hok : ∀ log, pipe.outcome log = none) :
    ∃ pipe1 emitted, WriteData pipe p = some (pipe1, none) ∧
      pipe1.log = pipe.log ++ emitted ∧
      (∀ l ∈ emitted, l = [68, 32] ++ chunkBody l ++ [10]) ∧
      (emitted.map chunkBody).flatten = escapeParameters p ∧
      unescapeParameters (emitted.map chunkBody).flatten = Except.ok p := by
  have hall : writeAll pipe (dataLines p) = ({ pipe with log := pipe.log ++ dataLines p }, none) :=
    writeAll_no_error _ pipe (fun _ _ => hok _)
  have hbody : (dataLines p).map chunkBody
      = chunksOf (MaxLineLen - 3) (escapeParameters p).length (escapeParameters p) := by
    simp only [dataLines, List.map_map]
    have : chunkBody ∘ dataLine = id := funext chunkBody_dataLine
    rw [this, List.map_id]
  have hjoin : ((dataLines p).map chunkBody).flatten = escapeParameters p := by
    rw [hbody]
    exact chunksOf_join _ (by decide) _ _ (Nat.le_refl _)
  refine ⟨{ pipe with log := pipe.log ++ dataLines p }, dataLines p, ?_, rfl, ?_, hjoin, ?_⟩
  · rw [WriteData_eq_writeAll, hall]
  · intro l hl
    simp only [dataLines, List.mem_map] at hl
    obtain ⟨c, -, rfl⟩ := hl
    rw [chunkBody_dataLine]
    rfl
  · rw [hjoin]
    exact unescape_escape p

/-- C5 at the payload `"a b\n"` on a stream that never fails. -/
theorem WriteData_reconstruction_witness :
    ∃ pipe1 emitted, WriteData ⟨[], fun _ => none⟩ (bytes ("a b\n")) = some (pipe1, none) ∧
      pipe1.log = [] ++ emitted ∧
      (∀ l ∈ emitted, l = [68, 32] ++ chunkBody l ++ [10]) ∧
      (emitted.map chunkBody).flatten = escapeParameters (bytes ("a b\n")) ∧
      unescapeParameters (emitted.map chunkBody).flatten = Except.ok (bytes ("a b\n")) :=
  WriteData_reconstruction ⟨[], fun _ => none⟩ (bytes ("a b\n")) (fun _ => rfl)

theorem escape_replicate_append (n : Nat) (l : List Nat) :
    escapeParameters (List.replicate n 97 ++ l) = List.replicate n 97 ++ escapeParameters l := by
  induction n with
  | zero => rfl
  | succ k ih =>
    have h97 : reserved 97 = false := by decide
    rw [List.replicate_succ, List.cons_append, escapeParameters]
    simp only [h97, Bool.false_eq_true, if_false, ih, List.cons_append]

theorem unescape_replicate_percent (n : Nat) :
    unescapeParameters (List.replicate n 97 ++ [37]) = Except.error Error.malformedEscape := by
  induction n with
  | zero => rfl
  | succ k ih =>
    simp only [List.replicate_succ, List.cons_append]
    rw [unescapeParameters.eq_def]
    simp [ih]

theorem ReadLine_dataLine (mapUpper : List Nat → List Nat) (chunk : List Nat)
    (h10 : 10 ∉ chunk) (h13 : chunk.getLast? ≠ some 13) (h32 : 32 ∉ chunk)
    (hlen : chunk.length ≤ MaxLineLen - 3) :
    (ReadLine mapUpper ⟨[dataLine chunk], none⟩).map Prod.fst
      = some (match unescapeParameters chunk with
              | .error e => ⟨[], [], some e⟩
              | .ok params => ⟨[68], params, none⟩) := by
  have hcr : dropCR ([68] ++ 32 :: chunk) = [68] ++ 32 :: chunk := by
    apply dropCR_of_last
    intro hlast
    rw [List.getLast?_append_of_ne_nil _ (List.cons_ne_nil _ _)] at hlast
    cases chunk with
    | nil => simp at hlast
    | cons c rest => exact h13 (by simpa using hlast)
  have hline : 10 ∉ [68] ++ 32 :: chunk := by
    simp only [List.singleton_append, List.mem_cons, not_or]
    exact ⟨by decide, by decide, h10⟩
  have hsize : ([68] ++ 32 :: chunk).length < MaxScanTokenSize := by
    simp only [List.length_append, List.length_cons, List.length_nil, MaxScanTokenSize]
    simp only [MaxLineLen] at hlen
    omega
  have hblank : isBlank (68 :: 32 :: chunk) = false :=
    isBlank_cons_false 68 _ (by decide) (by decide)
  obtain ⟨pipe1, hread⟩ := ReadLine_first_line mapUpper ⟨[dataLine chunk], none⟩
    ([68] ++ 32 :: chunk) [] hline hsize (by simp [dataLine]) (by simp [dataLine])
    (by
      rw [hcr]
      simp only [List.singleton_append, hblank]
      simp [HasPrefix])
  rw [hread, hcr]
  have hsplit := SplitN_at_space [68] chunk (by decide)
  have hup : ToUpper mapUpper [68] = [68] := rfl
  simp only [Option.map_some', ReadLine.parse, hsplit, hup]

theorem dataLines_cut (n : Nat) (hn : n + 1 = MaxLineLen - 3) :
    dataLines (List.replicate n 97 ++ [10])
      = [dataLine (List.replicate n 97 ++ [37]), dataLine [48, 65]] := by
  have hesc : escapeParameters (List.replicate n 97 ++ [10])
      = List.replicate n 97 ++ [37, 48, 65] := by
    rw [escape_replicate_append]; rfl
  have hlen : (List.replicate n 97 ++ [37, 48, 65]).length = (n + 2) + 1 := by
    simp only [List.length_append, List.length_replicate, List.length_cons, List.length_nil]
  have htake : (List.replicate n 97 ++ [37, 48, 65]).take (MaxLineLen - 3)
      = List.replicate n 97 ++ [37] := by
    rw [← hn, List.take_append_eq_append_take]
    simp only [List.length_replicate, Nat.add_sub_cancel_left, List.take_replicate]
    rw [Nat.min_eq_right (Nat.le_succ n)]
    rfl
  have hdrop : (List.replicate n 97 ++ [37, 48, 65]).drop (MaxLineLen - 3) = [48, 65] := by
    rw [← hn, List.drop_append_eq_append_drop]
    simp only [List.length_replicate, Nat.add_sub_cancel_left, List.drop_replicate]
    rw [Nat.sub_eq_zero_of_le (Nat.le_succ n)]
    rfl
  obtain ⟨b, rest, hbr⟩ : ∃ b rest, List.replicate n 97 ++ [37, 48, 65] = b :: rest := by
    cases n with
    | zero => exact ⟨37, [48, 65], rfl⟩
    | succ k => exact ⟨97, List.replicate k 97 ++ [37, 48, 65], by
        rw [List.replicate_succ, List.cons_append]⟩
  unfold dataLines
  rw [hesc, hlen, hbr, chunksOf, ← hbr, htake, hdrop]
  rfl

theorem WriteData_cut (n : Nat) (hn : n + 1 = MaxLineLen - 3) :
    (WriteData ⟨[], fun _ => none⟩ (List.replicate n 97 ++ [10])).map
        (fun res => (res.1.log, res.2))
      = some ([dataLine (List.replicate n 97 ++ [37]), dataLine [48, 65]], none) := by
  rw [WriteData_eq_writeAll, dataLines_cut n hn]
  rfl

theorem ReadLine_cut (n : Nat) (hn : n + 1 = MaxLineLen - 3) :
    (ReadLine id ⟨[dataLine (List.replicate n 97 ++ [37])], none⟩).map Prod.fst
      = some ⟨[], [], some Error.malformedEscape⟩ := by
  have h := ReadLine_dataLine id (List.replicate n 97 ++ [37])
    (by simp [List.mem_replicate]) (by simp) (by simp [List.mem_replicate])
    (by simp only [List.length_append, List.length_replicate, List.length_cons,
          List.length_nil]; omega)
  rw [h, unescape_replicate_percent]

/-- C6. `WriteData` on the 997-byte payload of 996 letters `a` followed by a
line feed succeeds with two writes; the first data line ends in the lone `%`
of the escape token `%0A` that the chunk boundary cuts, `ReadLine` on that line
returns the decode error, and the second line decodes on its own to `0A`. -/
theorem WriteData_cuts_escape_token :
    (WriteData ⟨[], fun _ => none⟩ (List.replicate 996 97 ++ [10])).map
        (fun res => (res.1.log, res.2))
      = some ([dataLine (List.replicate 996 97 ++ [37]), dataLine [48, 65]], none) ∧
    (ReadLine id ⟨[dataLine (List.replicate 996 97 ++ [37])], none⟩).map Prod.fst
      = some ⟨[], [], some Error.malformedEscape⟩ ∧
    (ReadLine id ⟨[dataLine [48, 65]], none⟩).map Prod.fst = some ⟨[68], [48, 65], none⟩ :=
  ⟨WriteData_cut 996 rfl, ReadLine_cut 996 rfl, by decide⟩

/-- C7. Line bound: every write issued by `WriteData`, on any stream, has the
form `"D " ++ chunk ++ "\n"` with `1 ≤ len(chunk) ≤ MaxLineLen - 3 = 997`, so
every emitted line is at most `MaxLineLen = 1000` bytes long. -/
theorem WriteData_line_bound (pipe : Writer) (p : List Nat) :
    ∃ pipe1 err emitted, WriteData pipe p = some (pipe1, err) ∧
      pipe1.log = pipe.log ++ emitted ∧
      ∀ l ∈ emitted, ∃ chunk, l = [68, 32] ++ chunk ++ [10] ∧
        1 ≤ chunk.length ∧ chunk.length ≤ MaxLineLen - 3 ∧ chunk.length ≤ 997 ∧
        l.length ≤ MaxLineLen := by
  obtain ⟨k, -, hlog⟩ := writeAll_log (dataLines p) pipe
  refine ⟨(writeAll pipe (dataLines p)).1, (writeAll pipe (dataLines p)).2,
    (dataLines p).take k, WriteData_eq_writeAll pipe p, hlog, ?_⟩
  intro l hl
  have hl2 := List.mem_of_mem_take hl
  simp only [dataLines, List.mem_map] at hl2
  obtain ⟨c, hc, rfl⟩ := hl2
  have hb := chunksOf_bounds (MaxLineLen - 3) (by decide) _ _ c hc
  refine ⟨c, rfl, hb.1, hb.2, hb.2, ?_⟩
  have := hb.2
  simp only [dataLine, List.length_append, List.length_cons, List.length_nil, MaxLineLen] at *
  omega

/-- C8. Line count: on a stream whose writes succeed, `WriteData` issues exactly
`ceil(len(escapeParameters(p)) / (MaxLineLen - 3))` writes, and every one of
them except possibly the last carries a chunk of exactly 997 bytes. -/
theorem WriteData_line_count (pipe : Writer) (p : List Nat)
    (hok : ∀ log, pipe.outcome log = none) :
    ∃ pipe1 emitted, WriteData pipe p = some (pipe1, none) ∧
      pipe1.log = pipe.log ++ emitted ∧
      emitted.length = ((escapeParameters p).length + (MaxLineLen - 3) - 1) / (MaxLineLen - 3) ∧
      ∀ l ∈ emitted.dropLast, (chunkBody l).length = 997 := by
  have hall : writeAll pipe (dataLines p) = ({ pipe with log := pipe.log ++ dataLines p }, none) :=
    writeAll_no_error _ pipe (fun _ _ => hok _)
  refine ⟨{ pipe with log := pipe.log ++ dataLines p }, dataLines p, ?_, rfl, ?_, ?_⟩
  · rw [WriteData_eq_writeAll, hall]
  · simp only [dataLines, List.length_map]
    exact chunksOf_length _ (by decide) _ _ (Nat.le_refl _)
  · intro l hl
    simp only [dataLines, ← List.map_dropLast, List.mem_map] at hl
    obtain ⟨c, hc, rfl⟩ := hl
    rw [chunkBody_dataLine]
    exact chunksOf_dropLast_full _ _ _ c hc

/-- C8 at a payload of 1000 letters `a`, longer than `MaxLineLen`, on a stream that never fails. -/
theorem WriteData_line_count_witness :
    ∃ pipe1 emitted, WriteData ⟨[], fun _ => none⟩ (List.replicate 1000 97) = some (pipe1, none) ∧
      pipe1.log = [] ++ emitted ∧
      emitted.length
        = ((escapeParameters (List.replicate 1000 97)).length + (MaxLineLen - 3) - 1)
            / (MaxLineLen - 3) ∧
      ∀ l ∈ emitted.dropLast, (chunkBody l).length = 997 :=
  WriteData_line_count ⟨[], fun _ => none⟩ (List.replicate 1000 97) (fun _ => rfl)

/-- C9. For the empty payload `WriteData` returns nil without issuing any write:
no `D` line is emitted, whatever the stream. -/
theorem WriteData_empty_payload_no_write (pipe : Writer) :
    WriteData pipe [] = some (pipe, none) := by
  rfl

/-- C10. First-error stop: when the `k`-th write (1-based) of a `WriteData` call
is the first to fail, with error `e`, the call returns exactly `e` after issuing
exactly the first `k` data lines in order; when none of the writes fails it
issues all the data lines and returns nil. -/
theorem WriteData_first_error_stop (pipe : Writer) (p : List Nat) :
    (∀ k e, 1 ≤ k → k ≤ (dataLines p).length →
      (∀ j, j + 1 < k → pipe.outcome (pipe.log ++ (dataLines p).take (j + 1)) = none) →
      pipe.outcome (pipe.log ++ (dataLines p).take k) = some e →
      ∃ pipe1, WriteData pipe p = some (pipe1, some (Error.stream e)) ∧
        pipe1.log = pipe.log ++ (dataLines p).take k) ∧
    ((∀ j, j < (dataLines p).length →
        pipe.outcome (pipe.log ++ (dataLines p).take (j + 1)) = none) →
      ∃ pipe1, WriteData pipe p = some (pipe1, none) ∧
        pipe1.log = pipe.log ++ dataLines p) := by
  constructor
  · intro k e h1 h2 hok hfail
    refine ⟨{ pipe with log := pipe.log ++ (dataLines p).take k }, ?_, rfl⟩
    rw [WriteData_eq_writeAll, writeAll_first_error _ pipe k e h1 h2 hok hfail]
  · intro hok
    refine ⟨{ pipe with log := pipe.log ++ dataLines p }, ?_, rfl⟩
    rw [WriteData_eq_writeAll, writeAll_no_error _ pipe hok]

/-- C10 at the payload `"ab"` on a stream whose every write fails with code 7:
the first write is the first to fail, the call returns that error and the log
holds the first data line only. -/
theorem WriteData_first_error_stop_witness :
    ∃ pipe1, WriteData ⟨[], fun _ => some 7⟩ (bytes ("ab")) = some (pipe1, some (Error.stream 7)) ∧
      pipe1.log = [] ++ (dataLines (bytes ("ab"))).take 1 :=
  (WriteData_first_error_stop ⟨[], fun _ => some 7⟩ (bytes ("ab"))).1 1 7 (by decide) (by decide)
    (by intro j hj; omega) rfl

/-! ## The lines of a stream -/

theorem streamLines_no_newline : ∀ l : List Nat, 10 ∉ l → l ≠ [] → streamLines l = [l] := by
  intro l
  induction l with
  | nil => intro _ h; exact absurd rfl h
  | cons b rest ih =>
    intro h10 _
    simp only [List.mem_cons, not_or] at h10
    have hb : b ≠ 10 := fun e => h10.1 e.symm
    cases rest with
    | nil => simp [streamLines, hb]
    | cons c rest2 =>
      have := ih h10.2 (List.cons_ne_nil _ _)
      rw [streamLines]
      simp only [hb, if_false, this]

theorem streamLines_append (rest : List Nat) :
    ∀ line : List Nat, 10 ∉ line → streamLines (line ++ 10 :: rest) = line :: streamLines rest := by
  intro line
  induction line with
  | nil => intro _; simp [streamLines]
  | cons b tail ih =>
    intro h10
    simp only [List.mem_cons, not_or] at h10
    have hb : b ≠ 10 := fun e => h10.1 e.symm
    rw [List.cons_append, streamLines]
    simp only [hb, if_false, ih h10.2]

theorem first_newline : ∀ data : List Nat,
    10 ∉ data ∨ ∃ line rest, data = line ++ 10 :: rest ∧ 10 ∉ line := by
  intro data
  induction data with
  | nil => exact Or.inl (by simp)
  | cons b tail ih =>
    by_cases hb : b = 10
    · exact Or.inr ⟨[], tail, by simp [hb], by simp⟩
    · rcases ih with h | ⟨line, rest, h, hl⟩
      · refine Or.inl ?_
        simp only [List.mem_cons, not_or]
        exact ⟨fun e => hb e.symm, h⟩
      · refine Or.inr ⟨b :: line, rest, by simp [h], ?_⟩
        simp only [List.mem_cons, not_or]
        exact ⟨fun e => hb e.symm, hl⟩

theorem kept_iff_not_discarded (line : List Nat) :
    (!HasPrefix line [35] && !HasPrefix line [83, 32] && !isBlank line) = !discarded line := by
  unfold discarded
  cases HasPrefix line [35] <;> cases HasPrefix line [83, 32] <;> cases isBlank line <;> rfl

/-! ## Scanner invariants -/

theorem grow_cap (s : Scanner) (h : s.cap ≤ MaxScanTokenSize) :
    s.grow.cap ≤ MaxScanTokenSize := by
  have hmin : ∀ a : Nat, Assuan.min a MaxScanTokenSize ≤ MaxScanTokenSize := by
    intro a
    unfold Assuan.min
    split
    · assumption
    · exact Nat.le_refl _
  unfold Scanner.grow
  split
  · exact hmin _
  · exact h

theorem scanLoop_cap :
    ∀ (fuel : Nat) (s : Scanner) (tok : Option (List Nat)) (s1 : Scanner),
      Scanner.scanLoop fuel s = some (tok, s1) → s.cap ≤ MaxScanTokenSize →
      s1.cap ≤ MaxScanTokenSize := by
  intro fuel
  induction fuel with
  | zero => intro s tok s1 h; simp [Scanner.scanLoop] at h
  | succ f ih =>
    intro s tok s1 h hcap
    rw [Scanner.scanLoop] at h
    cases htok : s.split.2 with
    | some token =>
      simp only [htok, Option.some.injEq, Prod.mk.injEq] at h
      rw [← h.2]; exact hcap
    | none =>
      simp only [htok] at h
      by_cases herr : s.err.isSome = true
      · simp only [herr, if_true, Option.some.injEq, Prod.mk.injEq] at h
        rw [← h.2]; exact hcap
      · obtain ⟨hsr, hsb, hsc, hse, hss⟩ := shift_fields s
        simp only [herr, Bool.false_eq_true, if_false] at h
        by_cases hfull : s.shift.start + s.shift.buf.length = s.shift.cap
            ∧ s.shift.cap ≥ MaxScanTokenSize
        · simp only [hfull, and_self, if_true, Option.some.injEq, Prod.mk.injEq] at h
          rw [← h.2]; simp only [hsc]; exact hcap
        · simp only [hfull, if_false] at h
          exact ih _ tok s1 h (by simpa using grow_cap s.shift (by rw [hsc]; exact hcap))

theorem readLoop_end (space left : Nat) (r : Reader) (h : r.chunks = []) :
    Scanner.readLoop space (left + 1) r
      = ([], some (match r.final with | none => Error.eof | some c => Error.stream c), r) := by
  simp [Scanner.readLoop, Reader.Read, h]

/-- After the input has ended the scanner hands out what is left in its window
as a last line, or stops when nothing is left. -/
theorem scanLoop_at_end (f : Nat) (s : Scanner) (e : Error) (herr : s.err = some e)
    (hnl : 10 ∉ s.buf) :
    ∃ s1, Scanner.scanLoop (f + 1) s
        = some (if s.buf = [] then none else some (dropCR s.buf), s1) ∧
      s1.buf = [] ∧ s1.r = s.r ∧ s1.err = s.err := by
  by_cases hb : s.buf = []
  · refine ⟨{ s with buf := [], start := 0 }, ?_, rfl, rfl, rfl⟩
    have hsplit : s.split = (0, none) := by
      simp [Scanner.split, ScanLines, herr, hb]
    rw [Scanner.scanLoop]
    simp only [hsplit, herr, Option.isSome_some, if_true, hb]
  · refine ⟨{ s with buf := s.buf.drop s.buf.length, start := s.start + s.buf.length },
      ?_, by simp, rfl, rfl⟩
    have hpos : 0 < s.buf.length := List.length_pos.mpr hb
    have hne : s.buf.isEmpty = false := by
      cases hbuf : s.buf with
      | nil => exact absurd hbuf hb
      | cons x xs => rfl
    have hsplit : s.split = (s.buf.length, some (dropCR s.buf)) := by
      simp [Scanner.split, ScanLines, herr, hne, IndexByte_none 10 s.buf hnl]
    rw [Scanner.scanLoop]
    simp only [hsplit, hb, if_false]

/-- On a stream whose remaining bytes hold no line feed and fit the buffer, the
scanner reads to the end of the input and returns the remaining bytes as the
last line, or no line when nothing remains. -/
theorem scanLoop_tail (data : List Nat) (hnl : 10 ∉ data)
    (hlen : data.length < MaxScanTokenSize) :
    ∀ (fuel : Nat) (s : Scanner),
      s.err = none →
      s.buf ++ s.r.chunks.flatten = data →
      (∀ c ∈ s.r.chunks, c ≠ []) →
      s.start + s.buf.length ≤ s.cap →
      s.r.chunks.flatten.length + 2 ≤ fuel →
      ∃ s1, Scanner.scanLoop fuel s = some (if data = [] then none else some (dropCR data), s1) ∧
        s1.buf = [] ∧ s1.r.chunks = [] ∧ s1.r.final = s.r.final ∧
        s1.err = some (match s.r.final with | none => Error.eof | some c => Error.stream c) := by
  intro fuel
  induction fuel with
  | zero => intro s _ _ _ _ hfuel; omega
  | succ f ih =>
    intro s herr hcat hne hinv hfuel
    have hbnl : 10 ∉ s.buf := by
      intro hmem
      exact hnl (by rw [← hcat]; exact List.mem_append_left _ hmem)
    have hblen : s.buf.length < MaxScanTokenSize := by
      have := congrArg List.length hcat
      simp only [List.length_append] at this
      omega
    obtain ⟨hsr, hsb, hsc, hse, hss⟩ := shift_fields s
    have hnf := shift_not_full s hblen
    have hinv2 : s.shift.start + s.shift.buf.length ≤ s.shift.cap := by
      rw [hsb, hsc]; omega
    obtain ⟨hgr, hgb, hge⟩ := grow_fields s.shift
    have hroom := grow_room s.shift hinv2 hnf
    cases hch : s.r.chunks with
    | nil =>
      have hdata : s.buf = data := by simpa [hch] using hcat
      have hread := readLoop_end
        (s.shift.grow.cap - (s.shift.grow.start + s.shift.grow.buf.length))
        maxConsecutiveEmptyReads s.shift.grow.r (by rw [hgr, hsr]; exact hch)
      obtain ⟨g, hg⟩ : ∃ g, f = g + 1 := ⟨f - 1, by omega⟩
      generalize hE : (match s.shift.grow.r.final with
        | none => Error.eof | some c => Error.stream c) = e at hread
      obtain ⟨s1, hs1, h1, h2, h3⟩ := scanLoop_at_end g
        { s.shift.grow with r := s.shift.grow.r, buf := s.shift.grow.buf ++ [], err := some e }
        e rfl (by simpa [hgb, hsb] using hbnl)
      refine ⟨s1, ?_, h1, ?_, ?_, ?_⟩
      · rw [Scanner.scanLoop]
        simp only [split_of_no_newline s herr hbnl, herr, Option.isSome_none,
          Bool.false_eq_true, if_false, hnf, hread]
        rw [hg, hs1]
        simp only [List.append_nil, hgb, hsb, hdata]
      · rw [h2]; simp only [hgr, hsr]; exact hch
      · rw [h2]; simp only [hgr, hsr]
      · rw [h3, ← hE]; simp only [hgr, hsr]
    | cons c0 cs =>
      have hc0 : c0 ≠ [] := hne c0 (by rw [hch]; exact List.mem_cons_self _ _)
      obtain ⟨rd, tail, hread, hdne, hdlen, hdcat, hdne2⟩ :=
        readLoop_data (s.shift.grow.cap - (s.shift.grow.start + s.shift.grow.buf.length))
          maxConsecutiveEmptyReads s.shift.grow.r c0 cs (by rw [hgr, hsr]; exact hch) hc0
          (by omega)
      have hdpos : 0 < rd.length := List.length_pos.mpr hdne
      have hflat : rd ++ tail.flatten = s.r.chunks.flatten := by
        rw [hdcat, hgr, hsr]
      obtain ⟨s1, hs1, h1, h2, h3, h4⟩ := ih
        { s.shift.grow with r := { s.shift.grow.r with chunks := tail },
                            buf := s.shift.grow.buf ++ rd, err := none }
        rfl
        (by
          simp only [hgb, hsb, List.append_assoc]
          rw [hflat]; exact hcat)
        (by
          simp only
          exact hdne2 (by rw [hgr, hsr]; exact hne))
        (by simp only [List.length_append]; omega)
        (by
          simp only
          have := congrArg List.length hflat
          simp only [List.length_append] at this
          omega)
      refine ⟨s1, ?_, h1, h2, ?_, ?_⟩
      · rw [Scanner.scanLoop]
        simp only [split_of_no_newline s herr hbnl, herr, Option.isSome_none,
          Bool.false_eq_true, if_false, hnf, hread]
        exact hs1
      · rw [h3]; simp only [hgr, hsr]
      · rw [h4]; simp only [hgr, hsr]

/-- On a stream that goes on for `MaxScanTokenSize` bytes without a line feed the
scanner fills its buffer to the size limit and stops with `bufio.ErrTooLong`. -/
theorem scanLoop_too_long (long rest : List Nat) (hnl : 10 ∉ long)
    (hlen : long.length = MaxScanTokenSize) :
    ∀ (fuel : Nat) (s : Scanner),
      s.err = none →
      s.buf ++ s.r.chunks.flatten = long ++ rest →
      (∀ c ∈ s.r.chunks, c ≠ []) →
      s.start + s.buf.length ≤ s.cap →
      s.cap ≤ MaxScanTokenSize →
      s.r.chunks.flatten.length + 1 ≤ fuel →
      ∃ s1, Scanner.scanLoop fuel s = some (none, s1) ∧ s1.err = some Error.scanTooLong := by
  intro fuel
  induction fuel with
  | zero => intro s _ _ _ _ _ hfuel; omega
  | succ f ih =>
    intro s herr hcat hne hinv hcap hfuel
    have key : ∃ a, long = s.buf ++ a ∧ s.r.chunks.flatten = a ++ rest := by
      rcases List.append_eq_append_iff.mp hcat with ⟨a, ha, hJ⟩ | ⟨c, hc, hJ⟩
      · exact ⟨a, ha, hJ⟩
      · have hl := congrArg List.length hc
        simp only [List.length_append] at hl
        have hc0 : c = [] := List.length_eq_zero.mp (by omega)
        subst hc0
        exact ⟨[], by simpa using hc.symm, by simpa using hJ.symm⟩
    obtain ⟨a, ha, hJ⟩ := key
    have hbnl : 10 ∉ s.buf := by
      intro hmem
      exact hnl (by rw [ha]; exact List.mem_append_left _ hmem)
    have hal := congrArg List.length ha
    simp only [List.length_append] at hal
    obtain ⟨hsr, hsb, hsc, hse, hss⟩ := shift_fields s
    by_cases hfull : s.buf.length = MaxScanTokenSize
    · have hf : s.shift.start + s.shift.buf.length = s.shift.cap
          ∧ s.shift.cap ≥ MaxScanTokenSize := by
        rw [hsb, hsc]; omega
      refine ⟨{ s.shift with err := some Error.scanTooLong }, ?_, rfl⟩
      rw [Scanner.scanLoop]
      simp only [split_of_no_newline s herr hbnl, herr, Option.isSome_none,
        Bool.false_eq_true, if_false, hf, and_self, if_true]
    · have hblen : s.buf.length < MaxScanTokenSize := by omega
      have hnf := shift_not_full s hblen
      have hinv2 : s.shift.start + s.shift.buf.length ≤ s.shift.cap := by
        rw [hsb, hsc]; omega
      obtain ⟨hgr, hgb, hge⟩ := grow_fields s.shift
      have hroom := grow_room s.shift hinv2 hnf
      have hgcap := grow_cap s.shift (by rw [hsc]; exact hcap)
      obtain ⟨c0, cs, hchunks⟩ : ∃ c0 cs, s.r.chunks = c0 :: cs := by
        cases hch : s.r.chunks with
        | nil =>
          rw [hch] at hJ
          have := congrArg List.length hJ
          simp only [List.flatten_nil, List.length_nil, List.length_append] at this
          omega
        | cons c0 cs => exact ⟨c0, cs, rfl⟩
      have hc0 : c0 ≠ [] := hne c0 (by rw [hchunks]; exact List.mem_cons_self _ _)
      obtain ⟨rd, tail, hread, hdne, hdlen, hdcat, hdne2⟩ :=
        readLoop_data (s.shift.grow.cap - (s.shift.grow.start + s.shift.grow.buf.length))
          maxConsecutiveEmptyReads s.shift.grow.r c0 cs (by rw [hgr, hsr]; exact hchunks) hc0
          (by omega)
      have hflat : rd ++ tail.flatten = s.r.chunks.flatten := by
        rw [hdcat, hgr, hsr]
      have hdpos : 0 < rd.length := List.length_pos.mpr hdne
      obtain ⟨s1, hs1, h1⟩ := ih
        { s.shift.grow with r := { s.shift.grow.r with chunks := tail },
                            buf := s.shift.grow.buf ++ rd, err := none }
        rfl
        (by
          simp only [hgb, hsb, List.append_assoc]
          rw [hflat]; exact hcat)
        (by
          simp only
          exact hdne2 (by rw [hgr, hsr]; exact hne))
        (by simp only [List.length_append]; omega)
        hgcap
        (by
          simp only
          have := congrArg List.length hflat
          simp only [List.length_append] at this
          omega)
      refine ⟨s1, ?_, h1⟩
      rw [Scanner.scanLoop]
      simp only [split_of_no_newline s herr hbnl, herr, Option.isSome_none,
        Bool.false_eq_true, if_false, hnf, hread]
      exact hs1

/-! ## `ReadLine` against its reference description -/

theorem Err_of_final (s : Scanner) (final : Option Nat)
    (h : s.err = some (match final with | none => Error.eof | some c => Error.stream c)) :
    s.Err = final.map Error.stream := by
  cases final with
  | none => simp [Scanner.Err, h]
  | some c => simp [Scanner.Err, h]

theorem loop_exhausted (mapUpper : List Nat → List Nat) (g : Nat) (s : Scanner) (e : Error)
    (hbuf : s.buf = []) (herr : s.err = some e) :
    ∃ s1, ReadLine.loop mapUpper (g + 1) s = some (⟨[], [], s.Err⟩, s1) := by
  obtain ⟨s1, hs1, -, -, h3⟩ := scanLoop_at_end (s.r.size + 1) s e herr (by simp [hbuf])
  refine ⟨s1, ?_⟩
  simp only [hbuf, if_true] at hs1
  simp only [ReadLine.loop, Scanner.Scan, hs1, Scanner.Err, h3]

theorem loop_too_long (mapUpper : List Nat → List Nat) (g : Nat) (s : Scanner)
    (long rest : List Nat) (hnl : 10 ∉ long) (hlen : long.length = MaxScanTokenSize)
    (herr : s.err = none) (hcat : s.buf ++ s.r.chunks.flatten = long ++ rest)
    (hne : ∀ c ∈ s.r.chunks, c ≠ []) (hinv : s.start + s.buf.length ≤ s.cap)
    (hcap : s.cap ≤ MaxScanTokenSize) :
    ∃ s1, ReadLine.loop mapUpper (g + 1) s = some (⟨[], [], some Error.scanTooLong⟩, s1) := by
  obtain ⟨s1, hs1, h1⟩ := scanLoop_too_long long rest hnl hlen (s.r.size + 2) s herr hcat hne
    hinv hcap (by have := flatten_length_lt_size s.r; omega)
  refine ⟨s1, ?_⟩
  simp [ReadLine.loop, Scanner.Scan, hs1, Scanner.Err, h1]

theorem take_limit (l tail : List Nat) (h10 : 10 ∉ l) (hlen : MaxScanTokenSize ≤ l.length) :
    10 ∉ l.take MaxScanTokenSize ∧ (l.take MaxScanTokenSize).length = MaxScanTokenSize ∧
      l ++ tail = l.take MaxScanTokenSize ++ (l.drop MaxScanTokenSize ++ tail) := by
  refine ⟨fun h => h10 (List.mem_of_mem_take h), ?_, ?_⟩
  · rw [List.length_take]; omega
  · rw [← List.append_assoc, List.take_append_drop]

theorem ReadLine_loop_eq (mapUpper : List Nat → List Nat) :
    ∀ (fuel : Nat) (s : Scanner),
      s.err = none →
      (∀ c ∈ s.r.chunks, c ≠ []) →
      s.start + s.buf.length ≤ s.cap →
      s.cap ≤ MaxScanTokenSize →
      s.buf.length + s.r.size < fuel →
      ∃ s1, ReadLine.loop mapUpper fuel s
        = some (readLineOf mapUpper s.r.final (streamLines (s.buf ++ s.r.chunks.flatten)), s1) := by
  intro fuel
  induction fuel with
  | zero => intro s _ _ _ _ h; omega
  | succ f ih =>
    intro s herr hne hinv hcap hfuel
    have hsz := flatten_length_lt_size s.r
    rcases first_newline (s.buf ++ s.r.chunks.flatten) with hnl | ⟨line, rest, hD, hline⟩
    · -- no line feed is left in the stream
      by_cases hlen : (s.buf ++ s.r.chunks.flatten).length < MaxScanTokenSize
      · obtain ⟨s1, hs1, hb1, hc1, hf1, he1⟩ := scanLoop_tail _ hnl hlen (s.r.size + 2) s herr rfl
          hne hinv (by omega)
        by_cases hD : s.buf ++ s.r.chunks.flatten = []
        · refine ⟨s1, ?_⟩
          simp only [hD, if_true] at hs1
          simp only [ReadLine.loop, Scanner.Scan, hs1, hD, streamLines, readLineOf,
            Err_of_final s1 s.r.final he1]
        · simp only [hD, if_false] at hs1
          have hlines := streamLines_no_newline _ hnl hD
          have hnotlong : ¬ MaxScanTokenSize ≤ (s.buf ++ s.r.chunks.flatten).length := by omega
          by_cases hdis : discarded (dropCR (s.buf ++ s.r.chunks.flatten)) = true
          · have hpos : 0 < (s.buf ++ s.r.chunks.flatten).length := List.length_pos.mpr hD
            simp only [List.length_append] at hpos
            obtain ⟨g, hg⟩ : ∃ g, f = g + 1 := ⟨f - 1, by omega⟩
            obtain ⟨s2, hs2⟩ := loop_exhausted mapUpper g s1 _ hb1 he1
            refine ⟨s2, ?_⟩
            rw [ReadLine.loop]
            simp only [Scanner.Scan, hs1, kept_iff_not_discarded, hdis, Bool.not_true,
              Bool.false_eq_true, if_false, hlines, readLineOf, hnotlong]
            rw [hg, hs2, Err_of_final s1 s.r.final he1]
            simp only [if_true]
          · refine ⟨s1, ?_⟩
            have hdis2 : discarded (dropCR (s.buf ++ s.r.chunks.flatten)) = false := by
              simpa using hdis
            rw [ReadLine.loop]
            simp only [Scanner.Scan, hs1, kept_iff_not_discarded, hdis2, Bool.not_false,
              if_true, hlines, readLineOf, hnotlong, Bool.false_eq_true, if_false]
      · have hge : MaxScanTokenSize ≤ (s.buf ++ s.r.chunks.flatten).length := by omega
        have hD : s.buf ++ s.r.chunks.flatten ≠ [] := by
          intro h0
          rw [h0] at hge
          simp [MaxScanTokenSize] at hge
        obtain ⟨h1, h2, h3⟩ := take_limit _ [] hnl hge
        rw [List.append_nil] at h3
        obtain ⟨s1, hs1⟩ := loop_too_long mapUpper f s _ _ h1 h2 herr h3 hne hinv hcap
        refine ⟨s1, ?_⟩
        rw [hs1, streamLines_no_newline _ hnl hD]
        simp only [readLineOf, hge, if_true]
    · -- the stream holds a complete line
      rw [hD, streamLines_append rest line hline]
      by_cases hlen : line.length < MaxScanTokenSize
      · obtain ⟨s1, hs1, he1, hcat1, hne1, hinv1, hf1⟩ := scanLoop_line line rest hline hlen
          (s.r.size + 2) s herr hD hne hinv (by omega)
        have hcap1 := scanLoop_cap _ s _ s1 hs1 hcap
        obtain ⟨tok, s1b, hs1b, hle, hlt⟩ := scanLoop_total (s.r.size + 2) s
          (by split <;> omega)
        rw [hs1] at hs1b
        simp only [Option.some.injEq, Prod.mk.injEq] at hs1b
        obtain ⟨htok, hs⟩ := hs1b
        subst htok hs
        have hlt2 := hlt rfl
        have hnotlong : ¬ MaxScanTokenSize ≤ line.length := by omega
        by_cases hdis : discarded (dropCR line) = true
        · obtain ⟨s2, hs2⟩ := ih s1 he1 hne1 hinv1 hcap1 (by omega)
          refine ⟨s2, ?_⟩
          rw [ReadLine.loop]
          simp only [Scanner.Scan, hs1, kept_iff_not_discarded, hdis, Bool.not_true,
            Bool.false_eq_true, if_false, readLineOf, hnotlong]
          rw [hs2, hcat1, hf1]
          simp only [if_true]
        · refine ⟨s1, ?_⟩
          have hdis2 : discarded (dropCR line) = false := by simpa using hdis
          rw [ReadLine.loop]
          simp only [Scanner.Scan, hs1, kept_iff_not_discarded, hdis2, Bool.not_false,
            if_true, readLineOf, hnotlong, Bool.false_eq_true, if_false]
      · have hge : MaxScanTokenSize ≤ line.length := by omega
        obtain ⟨h1, h2, h3⟩ := take_limit line (10 :: rest) hline hge
        obtain ⟨s1, hs1⟩ := loop_too_long mapUpper f s _ _ h1 h2 herr
          (by rw [hD]; exact h3) hne hinv hcap
        refine ⟨s1, ?_⟩
        rw [hs1]
        simp only [readLineOf, hge, if_true]

/-- On a stream delivered in non-empty reads `ReadLine` returns what the
reference description gives for the lines of the stream. -/
theorem ReadLine_eq_readLineOf (mapUpper : List Nat → List Nat) (pipe : Reader)
    (hreads : ∀ c ∈ pipe.chunks, c ≠ []) :
    (ReadLine mapUpper pipe).map Prod.fst
      = some (readLineOf mapUpper pipe.final (streamLines pipe.chunks.flatten)) := by
  obtain ⟨s1, hs1⟩ := ReadLine_loop_eq mapUpper (pipe.size + 2) (NewScanner pipe) rfl hreads
    (by simp [NewScanner]) (by simp [NewScanner])
    (by simp only [NewScanner, List.length_nil]; omega)
  simp only [ReadLine, hs1, Option.map_some']
  simp [NewScanner]

theorem readLineOf_first_kept (mapUpper : List Nat → List Nat) (final : Option Nat)
    (L : List Nat) (post : List (List Nat))
    (hL : discarded (dropCR L) = false) (hLlen : L.length < MaxScanTokenSize) :
    ∀ pre : List (List Nat),
      (∀ l ∈ pre, discarded (dropCR l) = true ∧ l.length < MaxScanTokenSize) →
      readLineOf mapUpper final (pre ++ L :: post) = ReadLine.parse mapUpper (dropCR L) := by
  intro pre
  induction pre with
  | nil =>
    intro _
    have hn : ¬ MaxScanTokenSize ≤ L.length := by omega
    simp only [List.nil_append, readLineOf, hn, if_false, hL, Bool.false_eq_true]
  | cons l rest ih =>
    intro hpre
    obtain ⟨hd, hl⟩ := hpre l (List.mem_cons_self _ _)
    have hn : ¬ MaxScanTokenSize ≤ l.length := by omega
    simp only [List.cons_append, readLineOf, hn, if_false, hd, if_true]
    exact ih (fun x hx => hpre x (List.mem_cons_of_mem _ hx))

/-- On a stream delivered in non-empty reads, whose lines up to the first one
that is not discarded all fit the scanner's buffer, `ReadLine` returns the parse
of that line, taken without a carriage return that ends it. -/
theorem ReadLine_first_kept (mapUpper : List Nat → List Nat) (pipe : Reader)
    (pre : List (List Nat)) (L : List Nat) (post : List (List Nat))
    (hreads : ∀ c ∈ pipe.chunks, c ≠ [])
    (hlines : streamLines pipe.chunks.flatten = pre ++ L :: post)
    (hpre : ∀ l ∈ pre, discarded (dropCR l) = true ∧ l.length < MaxScanTokenSize)
    (hL : discarded (dropCR L) = false) (hLlen : L.length < MaxScanTokenSize) :
    (ReadLine mapUpper pipe).map Prod.fst = some (ReadLine.parse mapUpper (dropCR L)) := by
  rw [ReadLine_eq_readLineOf mapUpper pipe hreads, hlines,
    readLineOf_first_kept mapUpper pipe.final L post hL hLlen pre hpre]

/-- A stream that opens with a line of `MaxScanTokenSize` bytes or more makes
`ReadLine` return `bufio.ErrTooLong`, whatever follows that line. -/
theorem ReadLine_too_long (mapUpper : List Nat → List Nat) (final : Option Nat)
    (long rest : List Nat) (hnl : 10 ∉ long) (hlen : MaxScanTokenSize ≤ long.length) :
    (ReadLine mapUpper ⟨[long ++ 10 :: rest], final⟩).map Prod.fst
      = some ⟨[], [], some Error.scanTooLong⟩ := by
  rw [ReadLine_eq_readLineOf mapUpper _ (by simp)]
  simp only [List.flatten_cons, List.flatten_nil, List.append_nil,
    streamLines_append rest long hnl, readLineOf, hlen, if_true]

theorem not_mem_replicate (n a b : Nat) (h : a ≠ b) : a ∉ List.replicate n b :=
  fun hmem => h (List.eq_of_mem_replicate hmem)

theorem parse_no_space (mapUpper : List Nat → List Nat) (line : List Nat) (h : 32 ∉ line) :
    ReadLine.parse mapUpper line = ⟨ToUpper mapUpper line, [], none⟩ := by
  simp only [ReadLine.parse, SplitN, IndexByte_none 32 line h]

theorem parse_space_ok (mapUpper : List Nat → List Nat) (c r params : List Nat) (h : 32 ∉ c)
    (hr : unescapeParameters r = Except.ok params) :
    ReadLine.parse mapUpper (c ++ 32 :: r) = ⟨ToUpper mapUpper c, params, none⟩ := by
  simp only [ReadLine.parse, SplitN_at_space c r h, hr]

theorem parse_space_error (mapUpper : List Nat → List Nat) (c r : List Nat) (e : Error)
    (h : 32 ∉ c) (hr : unescapeParameters r = Except.error e) :
    ReadLine.parse mapUpper (c ++ 32 :: r) = ⟨[], [], some e⟩ := by
  simp only [ReadLine.parse, SplitN_at_space c r h, hr]

/-! ## Filtering and parsing -/

/-- C11 (as amended). Filtering: on every input stream delivered in non-empty
reads, when the lines before `L` are all blank after trimming white space or
begin with `#` or with `S `, the line `L` is none of these, and none of these
lines reaches the scanner's limit of 65536 bytes, `ReadLine` skips the lines
before `L` and returns the parse of `L`. -/
theorem ReadLine_filtering (mapUpper : List Nat → List Nat) (pipe : Reader)
    (pre : List (List Nat)) (L : List Nat) (post : List (List Nat))
    (hreads : ∀ c ∈ pipe.chunks, c ≠ [])
    (hlines : streamLines pipe.chunks.flatten = pre ++ L :: post)
    (hpre : ∀ l ∈ pre, discarded (dropCR l) = true ∧ l.length < MaxScanTokenSize)
    (hL : discarded (dropCR L) = false) (hLlen : L.length < MaxScanTokenSize) :
    (ReadLine mapUpper pipe).map Prod.fst = some (ReadLine.parse mapUpper (dropCR L)) := by
  rw [ReadLine_eq_readLineOf mapUpper pipe hreads, hlines,
    readLineOf_first_kept mapUpper pipe.final L post hL hLlen pre hpre]

/-- C11 on the stream `"# a comment\nS STATUS foo\nOK\n"`: the comment and the
status line are skipped and the result is `("OK", "")`. -/
theorem ReadLine_filtering_witness :
    (ReadLine id ⟨[bytes ("# a comment\nS STATUS foo\nOK\n")], none⟩).map Prod.fst
        = some (ReadLine.parse id (dropCR (bytes ("OK")))) ∧
    ReadLine.parse id (dropCR (bytes ("OK"))) = ⟨bytes ("OK"), [], none⟩ :=
  ⟨ReadLine_filtering id ⟨[bytes ("# a comment\nS STATUS foo\nOK\n")], none⟩
      [bytes ("# a comment"), bytes ("S STATUS foo")] (bytes ("OK")) []
      (by decide) (by decide) (by decide) (by decide) (by decide),
   by decide⟩

/-- C11 as stated fails: the stream made of a comment line of 65536 bytes `#`
followed by the line `OK` has `OK` as its first line that is not discarded, yet
`ReadLine` does not return `("OK", "")`: the scanner cannot hold the comment
line and `ReadLine` returns `bufio.ErrTooLong`. -/
theorem ReadLine_filtering_fails_on_long_comment :
    streamLines (List.replicate 65536 35 ++ 10 :: bytes ("OK\n"))
      = [List.replicate 65536 35, bytes ("OK")] ∧
    (List.replicate 65536 35).head? = some 35 ∧
    discarded (dropCR (bytes ("OK"))) = false ∧
    ReadLine.parse id (dropCR (bytes ("OK"))) = ⟨bytes ("OK"), [], none⟩ ∧
    (ReadLine id ⟨[List.replicate 65536 35 ++ 10 :: bytes ("OK\n")], none⟩).map Prod.fst
      = some ⟨[], [], some Error.scanTooLong⟩ :=
  ⟨by rw [streamLines_append _ _ (not_mem_replicate 65536 10 35 (by decide))]; rfl,
   rfl, by decide, by decide,
   ReadLine_too_long id none (List.replicate 65536 35) (bytes ("OK\n"))
     (not_mem_replicate 65536 10 35 (by decide))
     (by rw [List.length_replicate]; decide)⟩

theorem dropCR_replicate (n b : Nat) (hb : b ≠ 13) :
    dropCR (List.replicate (n + 1) b) = List.replicate (n + 1) b := by
  apply dropCR_of_last
  rw [List.replicate_succ']
  simp only [List.getLast?_append, List.getLast?_singleton, Option.or_some, ne_eq,
    Option.some.injEq]
  exact hb

theorem letters_not_discarded (n : Nat) :
    discarded (dropCR (List.replicate (n + 1) 65)) = false := by
  rw [dropCR_replicate n 65 (by decide), List.replicate_succ]
  cases n with
  | zero => decide
  | succ k =>
    have hblank := isBlank_cons_false 65 (65 :: List.replicate k 65) (by decide) (by decide)
    simp [discarded, HasPrefix, hblank, List.replicate_succ]

/-- C12 (as amended). Parse result: on every input stream delivered in non-empty
reads whose first line that is not discarded is `L` (taken without a carriage
return that ends it), no line up to and including it reaching 65536 bytes:
if `L` holds no space `ReadLine` returns `(ToUpper(L), "", nil)`, and if
`L = c ++ " " ++ r` with no space in `c` and `r` decodes to `params` it returns
`(ToUpper(c), params, nil)`. -/
theorem ReadLine_parse_result (mapUpper : List Nat → List Nat) (pipe : Reader)
    (pre : List (List Nat)) (L : List Nat) (post : List (List Nat))
    (hreads : ∀ c ∈ pipe.chunks, c ≠ [])
    (hlines : streamLines pipe.chunks.flatten = pre ++ L :: post)
    (hpre : ∀ l ∈ pre, discarded (dropCR l) = true ∧ l.length < MaxScanTokenSize)
    (hL : discarded (dropCR L) = false) (hLlen : L.length < MaxScanTokenSize) :
    (32 ∉ dropCR L →
      (ReadLine mapUpper pipe).map Prod.fst = some ⟨ToUpper mapUpper (dropCR L), [], none⟩) ∧
    (∀ c r params, dropCR L = c ++ 32 :: r → 32 ∉ c →
      unescapeParameters r = Except.ok params →
      (ReadLine mapUpper pipe).map Prod.fst = some ⟨ToUpper mapUpper c, params, none⟩) := by
  have hread := ReadLine_first_kept mapUpper pipe pre L post hreads hlines hpre hL hLlen
  constructor
  · intro hsp
    rw [hread, parse_no_space mapUpper _ hsp]
  · intro c r params hsplit hc hr
    rw [hread, hsplit, parse_space_ok mapUpper c r params hc hr]

/-- C12 on the stream `"bye\n"` (command `BYE`) and on `"# note\nok a%20b\r\n"`
(command `OK` with parameters `a b`). -/
theorem ReadLine_parse_result_witness :
    (ReadLine id ⟨[bytes ("bye\n")], none⟩).map Prod.fst
      = some ⟨ToUpper id (dropCR (bytes ("bye"))), [], none⟩ ∧
    ToUpper id (dropCR (bytes ("bye"))) = bytes ("BYE") ∧
    (ReadLine id ⟨[bytes ("# note\nok a%20b\r\n")], none⟩).map Prod.fst
      = some ⟨ToUpper id (bytes ("ok")), bytes ("a b"), none⟩ :=
  ⟨(ReadLine_parse_result id ⟨[bytes ("bye\n")], none⟩ [] (bytes ("bye")) []
      (by decide) (by decide) (by decide) (by decide) (by decide)).1 (by decide),
   by decide,
   (ReadLine_parse_result id ⟨[bytes ("# note\nok a%20b\r\n")], none⟩ [bytes ("# note")]
      (bytes ("ok a%20b\r")) [] (by decide) (by decide) (by decide) (by decide) (by decide)).2
      (bytes ("ok")) (bytes ("a%20b")) (bytes ("a b")) (by decide) (by decide) (by decide)⟩

/-- C12 as stated fails: the stream whose only line is 65536 letters `A` has
that line as its first line that is not discarded, and the line holds no space,
yet `ReadLine` returns `bufio.ErrTooLong` with an empty command instead of the
upper-cased line with a nil error. -/
theorem ReadLine_parse_result_fails_on_long_line :
    streamLines (List.replicate 65536 65 ++ 10 :: []) = [List.replicate 65536 65] ∧
    discarded (dropCR (List.replicate 65536 65)) = false ∧
    32 ∉ List.replicate 65536 65 ∧
    (ReadLine id ⟨[List.replicate 65536 65 ++ 10 :: []], none⟩).map Prod.fst
      = some ⟨[], [], some Error.scanTooLong⟩ ∧
    (⟨[], [], some Error.scanTooLong⟩ : ReadResult)
      ≠ ⟨ToUpper id (dropCR (List.replicate 65536 65)), [], none⟩ :=
  ⟨by rw [streamLines_append _ _ (not_mem_replicate 65536 10 65 (by decide))]; rfl,
   letters_not_discarded 65535,
   not_mem_replicate 65536 32 65 (by decide),
   ReadLine_too_long id none (List.replicate 65536 65) []
     (not_mem_replicate 65536 10 65 (by decide))
     (by rw [List.length_replicate]; decide),
   fun h => by cases congrArg ReadResult.err h⟩

/-- C14 (as amended). Malformed escape: on every input stream delivered in
non-empty reads whose first line that is not discarded is `c ++ " " ++ r`
(taken without a carriage return that ends it, no space in `c`), no line up to
and including it reaching 65536 bytes, when `unescapeParameters` rejects `r`
with error `e`, `ReadLine` returns `("", "", e)`. -/
theorem ReadLine_malformed_escape (mapUpper : List Nat → List Nat) (pipe : Reader)
    (pre : List (List Nat)) (L : List Nat) (post : List (List Nat)) (c r : List Nat) (e : Error)
    (hreads : ∀ c ∈ pipe.chunks, c ≠ [])
    (hlines : streamLines pipe.chunks.flatten = pre ++ L :: post)
    (hpre : ∀ l ∈ pre, discarded (dropCR l) = true ∧ l.length < MaxScanTokenSize)
    (hL : discarded (dropCR L) = false) (hLlen : L.length < MaxScanTokenSize)
    (hsplit : dropCR L = c ++ 32 :: r) (hc : 32 ∉ c)
    (hr : unescapeParameters r = Except.error e) :
    (ReadLine mapUpper pipe).map Prod.fst = some ⟨[], [], some e⟩ := by
  rw [ReadLine_first_kept mapUpper pipe pre L post hreads hlines hpre hL hLlen, hsplit,
    parse_space_error mapUpper c r e hc hr]

/-- C14 on the stream `"# note\nSET a%2\n"`: the parameter part `a%2` ends inside
an escape token and `ReadLine` returns the decode error with empty results. -/
theorem ReadLine_malformed_escape_witness :
    (ReadLine id ⟨[bytes ("# note\nSET a%2\n")], none⟩).map Prod.fst
      = some ⟨[], [], some Error.malformedEscape⟩ :=
  ReadLine_malformed_escape id ⟨[bytes ("# note\nSET a%2\n")], none⟩ [bytes ("# note")]
    (bytes ("SET a%2")) [] (bytes ("SET")) (bytes ("a%2")) Error.malformedEscape
    (by decide) (by decide) (by decide) (by decide) (by decide) (by decide) (by decide)
    (by decide)

/-- C14 as stated fails: the only line of the stream is `A %` followed by 65536
letters `x`; its parameter part starts with `%x`, which `unescapeParameters`
rejects, yet `ReadLine` returns `bufio.ErrTooLong` and not the decode error. -/
theorem ReadLine_malformed_escape_fails_on_long_line :
    streamLines ((bytes ("A %") ++ List.replicate 65536 120) ++ 10 :: [])
      = [bytes ("A ") ++ 37 :: List.replicate 65536 120] ∧
    unescapeParameters (37 :: List.replicate 65536 120) = Except.error Error.malformedEscape ∧
    (ReadLine id ⟨[(bytes ("A %") ++ List.replicate 65536 120) ++ 10 :: []], none⟩).map Prod.fst
      = some ⟨[], [], some Error.scanTooLong⟩ ∧
    (⟨[], [], some Error.scanTooLong⟩ : ReadResult) ≠ ⟨[], [], some Error.malformedEscape⟩ := by
  have hnl : 10 ∉ bytes ("A %") ++ List.replicate 65536 120 := by
    intro h
    rcases List.mem_append.mp h with h | h
    · revert h; decide
    · exact not_mem_replicate 65536 10 120 (by decide) h
  refine ⟨?_, ?_, ?_, by decide⟩
  · rw [streamLines_append _ _ hnl]; rfl
  · rw [show List.replicate 65536 120 = 120 :: 120 :: List.replicate 65534 120 from rfl,
      unescapeParameters.eq_def]
    rfl
  · exact ReadLine_too_long id none _ [] hnl
      (by rw [List.length_append, List.length_replicate]; decide)

/-! ## End of stream, status lines, read-ahead -/

/-- C13. On the empty stream and on a stream that holds only a comment, both
ending with `io.EOF`, `ReadLine` returns an empty command, empty parameters and
a nil error. -/
theorem ReadLine_end_of_stream_nil_error :
    (ReadLine id ⟨[], none⟩).map Prod.fst = some ⟨[], [], none⟩ ∧
    (ReadLine id ⟨[bytes ("# only a comment\n")], none⟩).map Prod.fst = some ⟨[], [], none⟩ := by
  decide

/-- C16 as stated fails: the first token of the line `s foo` is `S` in lower
case and the only token of the line `S` is `S`, yet `ReadLine` skips neither:
it returns command `S` with parameters `foo` for the first and command `S` for
the second. A status line of 65538 bytes followed by the line `OK` is not
skipped either: `ReadLine` returns the scanner's error for it. -/
theorem ReadLine_status_lines_not_skipped :
    (ReadLine id ⟨[bytes ("s foo\n")], none⟩).map Prod.fst
      = some ⟨bytes ("S"), bytes ("foo"), none⟩ ∧
    (ReadLine id ⟨[bytes ("S\n")], none⟩).map Prod.fst = some ⟨bytes ("S"), [], none⟩ ∧
    HasPrefix (83 :: 32 :: List.replicate 65536 97) [83, 32] = true ∧
    (ReadLine id ⟨[(83 :: 32 :: List.replicate 65536 97) ++ 10 :: bytes ("OK\n")], none⟩).map
        Prod.fst
      = some ⟨[], [], some Error.scanTooLong⟩ :=
  ⟨by decide, by decide, rfl,
   ReadLine_too_long id none (83 :: 32 :: List.replicate 65536 97) (bytes ("OK\n"))
     (by
       intro hmem
       rcases List.mem_cons.1 hmem with h | h
       · exact absurd h (by decide)
       rcases List.mem_cons.1 h with h | h
       · exact absurd h (by decide)
       · exact not_mem_replicate 65536 10 97 (by decide) h)
     (by
       rw [List.length_cons, List.length_cons, List.length_replicate]
       decide)⟩

/-- C20. On a stream that delivers the two lines `A` and `B` in one read, the
first `ReadLine` returns `A` and leaves the stream empty: the bytes of `B` were
taken into the scanner of the first call and are gone with it, so the second
`ReadLine` on the same stream returns `("", "", nil)`. When each line arrives
in a read of its own the second call does return `B`. -/
theorem ReadLine_loses_read_ahead :
    streamLines (bytes ("A\nB\n")) = [bytes ("A"), bytes ("B")] ∧
    ReadLine id ⟨[bytes ("A\nB\n")], none⟩ = some (⟨bytes ("A"), [], none⟩, ⟨[], none⟩) ∧
    ((ReadLine id ⟨[bytes ("A\nB\n")], none⟩).bind (fun first => ReadLine id first.2)).map
        Prod.fst = some ⟨[], [], none⟩ ∧
    ((ReadLine id ⟨[bytes ("A\n"), bytes ("B\n")], none⟩).bind
        (fun first => ReadLine id first.2)).map Prod.fst = some ⟨bytes ("B"), [], none⟩ := by
  decide

/-! ## Bytes written by `WriteLine` -/

theorem escape_spaces_length (n : Nat) :
    (escapeParameters (List.replicate n 32)).length = 3 * n := by
  induction n with
  | zero => rfl
  | succ k ih =>
    have h32 : reserved 32 = true := by decide
    rw [List.replicate_succ, escapeParameters]
    simp only [h32, if_true, List.length_cons, ih]
    omega

theorem WriteLine_spaces (n : Nat) (h : n + 3 ≤ MaxLineLen) :
    (WriteLine id ⟨[], fun _ => none⟩ [68] (List.replicate n 32)).2 = none ∧
    ∃ line, (WriteLine id ⟨[], fun _ => none⟩ [68] (List.replicate n 32)).1.log = [line] ∧
      line.length = 3 * n + 3 := by
  have hn : ¬ [68].length + (List.replicate n 32).length + 2 > MaxLineLen := by
    rw [List.length_replicate]
    simp only [List.length_cons, List.length_nil]
    omega
  have hup : ToUpper id [68] = [68] := rfl
  refine ⟨by simp only [WriteLine, hn, if_false, Writer.Write, Option.map_none'],
    ToUpper id [68] ++ [32] ++ escapeParameters (List.replicate n 32) ++ [10], ?_, ?_⟩
  · simp only [WriteLine, hn, if_false, Writer.Write, List.nil_append]
  · simp only [hup, List.length_append, List.length_cons, List.length_nil,
      escape_spaces_length]
    omega

/-- C17. `WriteLine` accepts the command `D` with 997 spaces as parameters
(`1 + 997 + 2 = 1000`) and writes a line of 2994 bytes, each space having become
the three bytes `%20`: the written line is longer than `MaxLineLen`. -/
theorem WriteLine_writes_long_line :
    (WriteLine id ⟨[], fun _ => none⟩ [68] (List.replicate 997 32)).2 = none ∧
    ∃ line, (WriteLine id ⟨[], fun _ => none⟩ [68] (List.replicate 997 32)).1.log = [line] ∧
      line.length = 2994 ∧ MaxLineLen < line.length := by
  obtain ⟨h1, line, h2, h3⟩ := WriteLine_spaces 997 (by decide)
  exact ⟨h1, line, h2, h3, by rw [h3]; decide⟩

/-- C19 (as amended). One call, one protocol line: for every `cmd` and `params`
that `WriteLine` accepts, when the upper-cased command holds no line feed and no
carriage return, the bytes written are a line without line feed and without
carriage return followed by one line feed, and they are read back as exactly
one line. -/
theorem WriteLine_one_line (mapUpper : List Nat → List Nat) (pipe : Writer)
    (cmd params : List Nat) (hlen : cmd.length + params.length + 2 ≤ MaxLineLen)
    (h10 : 10 ∉ ToUpper mapUpper cmd) (h13 : 13 ∉ ToUpper mapUpper cmd) :
    ∃ line, (WriteLine mapUpper pipe cmd params).1.log = pipe.log ++ [line ++ [10]] ∧
      10 ∉ line ∧ 13 ∉ line ∧ (line ++ [10]).count 10 = 1 ∧
      streamLines (line ++ [10]) = [line] := by
  have hn : ¬ cmd.length + params.length + 2 > MaxLineLen := by omega
  have hesc := escape_not_reserved params
  have hl10 : 10 ∉ ToUpper mapUpper cmd ++ [32] ++ escapeParameters params := by
    simp only [List.mem_append, List.mem_singleton, not_or]
    exact ⟨⟨h10, by decide⟩, fun h => (hesc 10 h).1 rfl⟩
  have hl13 : 13 ∉ ToUpper mapUpper cmd ++ [32] ++ escapeParameters params := by
    simp only [List.mem_append, List.mem_singleton, not_or]
    exact ⟨⟨h13, by decide⟩, fun h => (hesc 13 h).2.1 rfl⟩
  refine ⟨ToUpper mapUpper cmd ++ [32] ++ escapeParameters params, ?_, hl10, hl13, ?_, ?_⟩
  · simp only [WriteLine, hn, if_false, Writer.Write]
  · rw [List.count_append, List.count_eq_zero_of_not_mem hl10]
    rfl
  · rw [streamLines_append [] _ hl10]
    rfl

/-- C19 at `WriteLine(stream, "ok", "a b\r\n")`. -/
theorem WriteLine_one_line_witness :
    ∃ line, (WriteLine id ⟨[], fun _ => none⟩ (bytes ("ok")) (bytes ("a b\r\n"))).1.log
        = [] ++ [line ++ [10]] ∧
      10 ∉ line ∧ 13 ∉ line ∧ (line ++ [10]).count 10 = 1 ∧
      streamLines (line ++ [10]) = [line] :=
  WriteLine_one_line id ⟨[], fun _ => none⟩ (bytes ("ok")) (bytes ("a b\r\n")) (by decide)
    (by decide) (by decide)

/-- C19 as stated fails: `WriteLine` accepts the command `A\nB` with parameters
`x` and writes `A\nB x\n`, which holds two line feeds and is read back as the
two lines `A` and `B x`. -/
theorem WriteLine_command_with_line_feed :
    [65, 10, 66].length + (bytes ("x")).length + 2 ≤ MaxLineLen ∧
    (WriteLine id ⟨[], fun _ => none⟩ [65, 10, 66] (bytes ("x"))).2 = none ∧
    (WriteLine id ⟨[], fun _ => none⟩ [65, 10, 66] (bytes ("x"))).1.log
      = [bytes ("A\nB x\n")] ∧
    (bytes ("A\nB x\n")).count 10 = 2 ∧
    streamLines (bytes ("A\nB x\n")) = [bytes ("A"), bytes ("B x")] := by
  decide

/-! ## Comments -/

theorem comment_line_facts (text : List Nat) (hlen : text.length + 3 ≤ MaxLineLen) :
    10 ∉ 35 :: 32 :: escapeParameters text ∧
    ¬ MaxScanTokenSize ≤ (35 :: 32 :: escapeParameters text).length ∧
    discarded (dropCR (35 :: 32 :: escapeParameters text)) = true := by
  have hesc := escape_not_reserved text
  have hel := escape_length_le text
  refine ⟨?_, ?_, ?_⟩
  · simp only [List.mem_cons, not_or]
    exact ⟨by decide, by decide, fun h => (hesc 10 h).1 rfl⟩
  · simp only [List.length_cons, MaxScanTokenSize]
    simp only [MaxLineLen] at hlen
    omega
  · have hcr : dropCR (35 :: 32 :: escapeParameters text) = 35 :: 32 :: escapeParameters text := by
      apply dropCR_of_last
      intro hlast
      have hmem := List.mem_of_getLast?_eq_some hlast
      simp only [List.mem_cons] at hmem
      rcases hmem with h | h | h
      · omega
      · omega
      · exact (hesc 13 h).2.1 rfl
    rw [hcr]
    simp [discarded, HasPrefix]

/-- C18. Comments are invisible to the reader: `WriteComment(text)` does what
`WriteLine("#", text)` does, and for every text with `len(text) + 3 ≤ 1000`, a
stream that delivers the bytes written by `WriteComment(text)` followed by the
bytes of a second stream makes `ReadLine` return what it returns on that second
stream (both delivered in non-empty reads and ending the same way). -/
theorem WriteComment_invisible (mapUpper : List Nat → List Nat)
    (outcome : List (List Nat) → Option Nat) (text : List Nat) (pipe rest : Reader)
    (hlen : text.length + 3 ≤ MaxLineLen)
    (hreads : ∀ c ∈ pipe.chunks, c ≠ []) (hreads2 : ∀ c ∈ rest.chunks, c ≠ [])
    (hfinal : pipe.final = rest.final)
    (hbytes : pipe.chunks.flatten
      = (WriteComment mapUpper ⟨[], outcome⟩ text).1.log.flatten ++ rest.chunks.flatten) :
    (∀ w : Writer, WriteComment mapUpper w text = WriteLine mapUpper w [35] text) ∧
    (ReadLine mapUpper pipe).map Prod.fst = (ReadLine mapUpper rest).map Prod.fst := by
  refine ⟨fun _ => rfl, ?_⟩
  have hn : ¬ [35].length + text.length + 2 > MaxLineLen := by
    simp only [List.length_cons, List.length_nil]; omega
  have hup : ToUpper mapUpper [35] = [35] := rfl
  have hcat : pipe.chunks.flatten
      = (35 :: 32 :: escapeParameters text) ++ 10 :: rest.chunks.flatten := by
    rw [hbytes]
    simp only [WriteComment, WriteLine, hn, if_false, Writer.Write, hup]
    simp
  obtain ⟨h10, hshort, hdis⟩ := comment_line_facts text hlen
  rw [ReadLine_eq_readLineOf mapUpper pipe hreads, ReadLine_eq_readLineOf mapUpper rest hreads2,
    hcat, streamLines_append _ _ h10, readLineOf]
  simp only [hshort, if_false, hdis, if_true, hfinal]

/-- C18 at the comment `hello world` written before the line `OK`. -/
theorem WriteComment_invisible_witness :
    (∀ w : Writer, WriteComment id w (bytes ("hello world"))
        = WriteLine id w [35] (bytes ("hello world"))) ∧
    (ReadLine id ⟨[bytes ("# hello%20world\nOK\n")], none⟩).map Prod.fst
      = (ReadLine id ⟨[bytes ("OK\n")], none⟩).map Prod.fst :=
  WriteComment_invisible id (fun _ => none) (bytes ("hello world"))
    ⟨[bytes ("# hello%20world\nOK\n")], none⟩ ⟨[bytes ("OK\n")], none⟩
    (by decide) (by decide) (by decide) rfl (by decide)

/-! ## Form of the returned command -/

theorem IndexByte_not_mem_take (b : Nat) :
    ∀ (l : List Nat) (i : Nat), IndexByte l b = some i → b ∉ l.take i := by
  intro l
  induction l with
  | nil => intro i h; simp [IndexByte] at h
  | cons x rest ih =>
    intro i h
    by_cases hx : x = b
    · simp only [IndexByte, hx, if_true, Option.some.injEq] at h
      subst h; simp
    · simp only [IndexByte, hx, if_false, Option.map_eq_some'] at h
      obtain ⟨k, hk, rfl⟩ := h
      simp only [List.take_succ_cons, List.mem_cons, not_or]
      exact ⟨fun e => hx e.symm, ih k hk⟩

theorem not_mem_of_IndexByte_none (b : Nat) :
    ∀ l : List Nat, IndexByte l b = none → b ∉ l := by
  intro l
  induction l with
  | nil => intro _; simp
  | cons x rest ih =>
    intro h
    by_cases hx : x = b
    · simp [IndexByte, hx] at h
    · simp only [IndexByte, hx, if_false, Option.map_eq_none'] at h
      simp only [List.mem_cons, not_or]
      exact ⟨fun e => hx e.symm, ih h⟩

theorem mem_of_mem_dropCR (l : List Nat) (b : Nat) (h : b ∈ dropCR l) : b ∈ l := by
  unfold dropCR at h
  split at h
  · exact List.mem_of_mem_dropLast h
  · exact h

theorem split_token_no_newline (s : Scanner) (token : List Nat) (h : s.split.2 = some token) :
    10 ∉ token := by
  unfold Scanner.split at h
  by_cases hc : s.buf.length > 0 ∨ s.err.isSome = true
  · simp only [hc, if_true] at h
    unfold ScanLines at h
    by_cases he : (s.err.isSome && s.buf.isEmpty) = true
    · simp [he] at h
    · simp only [he, Bool.false_eq_true, if_false] at h
      cases hi : IndexByte s.buf 10 with
      | some i =>
        simp only [hi, Option.some.injEq] at h
        subst h
        exact fun hm => IndexByte_not_mem_take 10 s.buf i hi (mem_of_mem_dropCR _ _ hm)
      | none =>
        simp only [hi] at h
        by_cases ha : s.err.isSome = true
        · simp only [ha, if_true, Option.some.injEq] at h
          subst h
          exact fun hm => not_mem_of_IndexByte_none 10 s.buf hi (mem_of_mem_dropCR _ _ hm)
        · simp [ha] at h
  · simp [hc] at h

theorem scanLoop_token_no_newline :
    ∀ (fuel : Nat) (s : Scanner) (token : List Nat) (s1 : Scanner),
      Scanner.scanLoop fuel s = some (some token, s1) → 10 ∉ token := by
  intro fuel
  induction fuel with
  | zero => intro s token s1 h; simp [Scanner.scanLoop] at h
  | succ f ih =>
    intro s token s1 h
    rw [Scanner.scanLoop] at h
    cases htok : s.split.2 with
    | some t =>
      simp only [htok, Option.some.injEq, Prod.mk.injEq] at h
      rw [← h.1]
      exact split_token_no_newline s t htok
    | none =>
      simp only [htok] at h
      by_cases herr : s.err.isSome = true
      · simp [herr] at h
      · simp only [herr, Bool.false_eq_true, if_false] at h
        by_cases hfull : s.shift.start + s.shift.buf.length = s.shift.cap
            ∧ s.shift.cap ≥ MaxScanTokenSize
        · simp [hfull] at h
        · simp only [hfull, if_false] at h
          exact ih _ token s1 h

theorem loop_result_form (mapUpper : List Nat → List Nat) :
    ∀ (fuel : Nat) (s : Scanner) (res : ReadResult) (s1 : Scanner),
      ReadLine.loop mapUpper fuel s = some (res, s1) →
      (∃ e, res = ⟨[], [], e⟩) ∨ ∃ line, 10 ∉ line ∧ res = ReadLine.parse mapUpper line := by
  intro fuel
  induction fuel with
  | zero => intro s res s1 h; simp [ReadLine.loop] at h
  | succ f ih =>
    intro s res s1 h
    rw [ReadLine.loop] at h
    cases hscan : s.Scan with
    | none => simp [hscan] at h
    | some out =>
      obtain ⟨tok, s2⟩ := out
      cases tok with
      | none =>
        simp only [hscan, Option.some.injEq, Prod.mk.injEq] at h
        exact Or.inl ⟨s2.Err, h.1.symm⟩
      | some line =>
        simp only [hscan] at h
        by_cases hkeep : (!HasPrefix line [35] && !HasPrefix line [83, 32] && !isBlank line) = true
        · simp only [hkeep, if_true, Option.some.injEq, Prod.mk.injEq] at h
          exact Or.inr ⟨line, scanLoop_token_no_newline _ s line s2 hscan, h.1.symm⟩
        · simp only [hkeep, Bool.false_eq_true, if_false] at h
          exact ih s2 res s1 h

theorem upper_token_form (mapUpper : List Nat → List Nat) (token : List Nat)
    (h32 : 32 ∉ token) (h10 : 10 ∉ token) (hascii : ∀ b ∈ token, b < 128) :
    ToUpper mapUpper (ToUpper mapUpper token) = ToUpper mapUpper token ∧
      32 ∉ ToUpper mapUpper token ∧ 10 ∉ ToUpper mapUpper token := by
  refine ⟨ToUpper_idem_ascii mapUpper token hascii, ?_, ?_⟩
  · rw [ToUpper_ascii mapUpper token hascii]
    intro hmem
    obtain ⟨d, hd, hd2⟩ := List.mem_map.mp hmem
    exact h32 (asciiUpper_low d 32 (by decide) hd2 ▸ hd)
  · rw [ToUpper_ascii mapUpper token hascii]
    intro hmem
    obtain ⟨d, hd, hd2⟩ := List.mem_map.mp hmem
    exact h10 (asciiUpper_low d 10 (by decide) hd2 ▸ hd)

theorem parse_command_token (mapUpper : List Nat → List Nat) (line : List Nat)
    (h10 : 10 ∉ line) (hnil : (ReadLine.parse mapUpper line).err = none) :
    ∃ token, (ReadLine.parse mapUpper line).cmd = ToUpper mapUpper token ∧
      32 ∉ token ∧ 10 ∉ token := by
  unfold ReadLine.parse SplitN at hnil ⊢
  cases hi : IndexByte line 32 with
  | none =>
    exact ⟨line, by simp only [hi], not_mem_of_IndexByte_none 32 line hi, h10⟩
  | some i =>
    simp only [hi] at hnil ⊢
    cases hu : unescapeParameters (line.drop (i + 1)) with
    | error e => simp [hu] at hnil
    | ok params =>
      exact ⟨line.take i, by simp only [hu], IndexByte_not_mem_take 32 line i hi,
        fun hm => h10 (List.mem_of_mem_take hm)⟩

/-- What does hold of the returned command on every input stream: `ReadLine`
returns, and when the error it returns is nil the returned command is the
upper-casing of a token that holds no space and no line feed; when that token
is made of ASCII bytes the command equals its own upper-case form and holds no
space and no line feed. -/
theorem ReadLine_command_form (mapUpper : List Nat → List Nat) (pipe : Reader) :
    ∃ res pipe1, ReadLine mapUpper pipe = some (res, pipe1) ∧
      (res.err = none →
        ∃ token, res.cmd = ToUpper mapUpper token ∧ 32 ∉ token ∧ 10 ∉ token ∧
          ((∀ b ∈ token, b < 128) →
            ToUpper mapUpper res.cmd = res.cmd ∧ 32 ∉ res.cmd ∧ 10 ∉ res.cmd)) := by
  obtain ⟨res, pipe1, hres⟩ := ReadLine_total mapUpper pipe
  refine ⟨res, pipe1, hres, fun hnil => ?_⟩
  have hloop : ∃ s1, ReadLine.loop mapUpper (pipe.size + 2) (NewScanner pipe) = some (res, s1) := by
    unfold ReadLine at hres
    cases hl : ReadLine.loop mapUpper (pipe.size + 2) (NewScanner pipe) with
    | none => simp [hl] at hres
    | some out =>
      obtain ⟨r, s1⟩ := out
      simp only [hl, Option.map_some', Option.some.injEq, Prod.mk.injEq] at hres
      exact ⟨s1, by rw [hres.1]⟩
  obtain ⟨s1, hs1⟩ := hloop
  have hform : ∃ token, res.cmd = ToUpper mapUpper token ∧ 32 ∉ token ∧ 10 ∉ token := by
    rcases loop_result_form mapUpper _ _ res s1 hs1 with ⟨e, he⟩ | ⟨line, hline, he⟩
    · exact ⟨[], by rw [he]; rfl, by simp, by simp⟩
    · rw [he] at hnil ⊢
      exact parse_command_token mapUpper line hline hnil
  obtain ⟨token, hcmd, h32, h10⟩ := hform
  refine ⟨token, hcmd, h32, h10, fun hascii => ?_⟩
  rw [hcmd]
  exact upper_token_form mapUpper token h32 h10 hascii

/-- C15. On the stream `"a\tb\n"` `ReadLine` returns a nil error with the
command `A\tB` and empty parameters: the line is split at the first space only,
so the tab, a white-space character, stays inside the returned command. -/
theorem ReadLine_command_with_tab :
    (ReadLine id ⟨[bytes ("a\tb\n")], none⟩).map Prod.fst = some ⟨[65, 9, 66], [], none⟩ ∧
    9 ∈ [65, 9, 66] ∧ isBlank [9] = true := by
  decide

/-! ## Comment and status lines -/

theorem dropCR_cons_cons (a b : Nat) (t : List Nat) :
    ∃ t1, dropCR (a :: b :: t) = a :: t1 ∧ (b = 32 → ∃ t2, t1 = 32 :: t2) := by
  unfold dropCR
  split
  · rename_i hlast
    rw [List.dropLast_cons₂]
    refine ⟨(b :: t).dropLast, rfl, fun hb => ?_⟩
    cases t with
    | nil =>
      subst hb
      simp at hlast
    | cons c t3 => exact ⟨(c :: t3).dropLast, by rw [List.dropLast_cons₂, hb]⟩
  · exact ⟨b :: t, rfl, fun hb => ⟨t, by rw [hb]⟩⟩

theorem discarded_of_marker (l : List Nat)
    (h : HasPrefix l [35] = true ∨ HasPrefix l [83, 32] = true) :
    discarded (dropCR l) = true := by
  cases l with
  | nil => rcases h with h | h <;> simp [HasPrefix] at h
  | cons a t =>
    cases t with
    | nil =>
      rcases h with h | h
      · have ha : a = 35 := by simpa [HasPrefix] using h
        subst ha
        decide
      · simp [HasPrefix] at h
    | cons b t2 =>
      obtain ⟨t1, hd, hsp⟩ := dropCR_cons_cons a b t2
      rw [hd]
      rcases h with h | h
      · have ha : a = 35 := by simpa [HasPrefix] using h
        subst ha
        simp [discarded, HasPrefix]
      · have hab : a = 83 ∧ b = 32 := by simpa [HasPrefix] using h
        obtain ⟨t3, ht3⟩ := hsp hab.2
        rw [ht3, hab.1]
        simp [discarded, HasPrefix]

theorem readLineOf_without (mapUpper : List Nat → List Nat) (final : Option Nat)
    (l : List Nat) (after : List (List Nat)) (hdis : discarded (dropCR l) = true)
    (hlen : l.length < MaxScanTokenSize) :
    ∀ before : List (List Nat),
      readLineOf mapUpper final (before ++ l :: after)
        = readLineOf mapUpper final (before ++ after) := by
  intro before
  induction before with
  | nil =>
    have hn : ¬ MaxScanTokenSize ≤ l.length := by omega
    simp only [List.nil_append, readLineOf, hn, if_false, hdis, if_true]
  | cons x rest ih =>
    rw [List.cons_append, List.cons_append, readLineOf, readLineOf, ih]

/-- C16 (as amended). Comment and status lines are never interpreted: on every
input stream delivered in non-empty reads, a line that begins with `#` or with
`S ` (an upper-case `S` followed by a space) and is shorter than 65536 bytes is
silently skipped wherever it stands among the lines of the stream: `ReadLine`
returns what it returns on a stream that has the same lines without that one
and ends the same way. -/
theorem ReadLine_skips_comment_and_status (mapUpper : List Nat → List Nat)
    (pipe other : Reader) (before : List (List Nat)) (l : List Nat) (after : List (List Nat))
    (hreads : ∀ c ∈ pipe.chunks, c ≠ []) (hreads2 : ∀ c ∈ other.chunks, c ≠ [])
    (hfinal : pipe.final = other.final)
    (hlines : streamLines pipe.chunks.flatten = before ++ l :: after)
    (hother : streamLines other.chunks.flatten = before ++ after)
    (hmark : HasPrefix l [35] = true ∨ HasPrefix l [83, 32] = true)
    (hlen : l.length < MaxScanTokenSize) :
    (ReadLine mapUpper pipe).map Prod.fst = (ReadLine mapUpper other).map Prod.fst := by
  rw [ReadLine_eq_readLineOf mapUpper pipe hreads, ReadLine_eq_readLineOf mapUpper other hreads2,
    hlines, hother, hfinal,
    readLineOf_without mapUpper other.final l after (discarded_of_marker l hmark) hlen before]

/-- C16 on the stream `"# first\nS STATUS foo\nOK\n"`: with or without its
status line the stream is read as `("OK", "")`. -/
theorem ReadLine_skips_comment_and_status_witness :
    (ReadLine id ⟨[bytes ("# first\nS STATUS foo\nOK\n")], none⟩).map Prod.fst
      = (ReadLine id ⟨[bytes ("# first\nOK\n")], none⟩).map Prod.fst ∧
    (ReadLine id ⟨[bytes ("# first\nOK\n")], none⟩).map Prod.fst
      = some ⟨bytes ("OK"), [], none⟩ :=
  ⟨ReadLine_skips_comment_and_status id ⟨[bytes ("# first\nS STATUS foo\nOK\n")], none⟩
      ⟨[bytes ("# first\nOK\n")], none⟩ [bytes ("# first")] (bytes ("S STATUS foo"))
      [bytes ("OK")] (by decide) (by decide) rfl (by decide) (by decide) (by decide)
      (by decide),
   by decide⟩

end Assuan
